import Mathlib

/-!
Verification of the queue storage layer of `queues/queues.go`.

The file shallowly embeds the six queue backends of the Go source
(contiguous-buffer slice, ring buffer, channel backed, linked list,
pooled linked list, sparse-index map) together with the shared resize
policy `shouldShrink`, and proves the spec's claims about them.

Modelling conventions:
- Go `int` values that are always non-negative (lengths, capacities,
  indices) are modelled as `Nat`; the length counters of the two
  linked-list backends are modelled as `Int` because the pooled
  backend's `Dequeue` decrements its counter before the empty check,
  which can drive it to -1.
- Go `uint64` arithmetic is modelled as `Nat` arithmetic modulo `2 ^ 64`.
- A panic is modelled as the `none` component of a
  `Option T × State` result: the `Option` is the value returned
  (or `none` when the Go code panics) and the `State` component is the
  memory state at the moment control leaves the method, which matters
  because the pooled backend mutates its length counter before
  panicking.
- The two mutable package globals `minShrink` and `baseLen` are
  modelled as an explicit `Tunables` record threaded through every
  operation; the Go defaults are `Tunables.mk 64 8` and the test file
  lowers them to `Tunables.mk 2 2`.
- A singly linked chain of nodes reachable from `head`, with `tail`
  pointing at its last node, is modelled as the `List` of its values
  in head-to-tail order; Go's `sync.Pool` recycles raw nodes whose
  fields are fully overwritten on `Enqueue`, so the pool does not
  influence values and is not part of the state.
- A buffered Go channel is modelled as the list of its buffered
  elements plus its capacity; `copyChan` drains a channel in FIFO
  order, so a drain into a fresh channel preserves the element list.
  Blocking sends cannot be modelled directly; instead the operations
  are total and explicit predicates (`chanEnqueueWouldBlock`,
  `chanShrinkWouldBlock`) capture exactly when the corresponding Go
  send would block, and we prove they never hold in reachable states.
-/

/-- The two mutable package-level tunables of the Go source:
`minShrink` (default 64) and `baseLen` (default 8). -/
structure Tunables where
  minShrink : Nat
  baseLen : Nat
deriving DecidableEq

/-- Go: `const growthFactor = 2`. -/
def growthFactor : Nat := 2

/-- Go default values of the tunables: `minShrink = 64`, `baseLen = 8`. -/
def defaultTunables : Tunables := ⟨64, 8⟩

/-- The values the test file sets while testing: `minShrink = 2`, `baseLen = 2`. -/
def testTunables : Tunables := ⟨2, 2⟩

/-- Go: `func shouldShrink(l, c int) (newCap int, ok bool)`:
`newCap = l * growthFactor; ok = l < c/4 && l > minShrink && l > baseLen`. -/
def shouldShrink (t : Tunables) (l c : Nat) : Nat × Bool :=
  (l * growthFactor, decide (l < c / 4) && decide (t.minShrink < l) && decide (t.baseLen < l))

/-- An abstract queue operation: enqueue a value or dequeue. -/
inductive Op (T : Type) where
  | enq : T → Op T
  | deq : Op T
deriving DecidableEq

/-- The values enqueued by a list of operations, in order. -/
def enqs {T : Type} : List (Op T) → List T
  | [] => []
  | Op.enq v :: r => v :: enqs r
  | Op.deq :: r => enqs r

/-- The number of dequeue operations in a list of operations. -/
def deqCount {T : Type} : List (Op T) → Nat
  | [] => 0
  | Op.enq _ :: r => deqCount r
  | Op.deq :: r => deqCount r + 1

/-- `specValid ops n` holds when, starting from a queue of length `n`,
every dequeue in `ops` is performed on a non-empty queue (the caller
obligation `Len() > 0` of the `Queue` interface). -/
def specValid {T : Type} : List (Op T) → Nat → Bool
  | [], _ => true
  | Op.enq _ :: r, n => specValid r (n + 1)
  | Op.deq :: r, n => (decide (n ≠ 0)) && specValid r (n - 1)

/-- Run a list of operations against a backend given by its enqueue
function and its dequeue function (whose `none` component signals the
Go panic on dequeue-from-empty).  Returns the final state and the list
of dequeued values in chronological order, or `none` when some dequeue
panicked. -/
def runQ {T S : Type} (enq : S → T → S) (deq : S → Option T × S) :
    List (Op T) → S → Option (S × List T)
  | [], s => some (s, [])
  | Op.enq v :: r, s => runQ enq deq r (enq s v)
  | Op.deq :: r, s =>
    match deq s with
    | (some v, s') =>
      match runQ enq deq r s' with
      | some (s'', out) => some (s'', v :: out)
      | none => none
    | (none, _) => none

/-- Project a run result to (remaining elements per the abstraction
function, dequeued values). -/
def runResult {T S : Type} (abs : S → List T) (r : Option (S × List T)) :
    Option (List T × List T) :=
  r.map (fun p => (abs p.1, p.2))

/-- Project a run result to (dequeued values, final reported length). -/
def runObs {T S : Type} (len : S → Int) (r : Option (S × List T)) :
    Option (List T × Int) :=
  r.map (fun p => (p.2, len p.1))

theorem enqs_length_add {T : Type} (ops : List (Op T)) :
    ∀ n, specValid ops n = true → deqCount ops ≤ n + (enqs ops).length := by
  induction ops with
  | nil => intro n _; simp [deqCount]
  | cons op r ih =>
    intro n h
    cases op with
    | enq v =>
      simp only [specValid] at h
      have := ih (n + 1) h
      simp only [deqCount, enqs, List.length_cons]
      omega
    | deq =>
      simp only [specValid, Bool.and_eq_true, decide_eq_true_eq] at h
      have := ih (n - 1) h.2
      simp only [deqCount, enqs]
      omega

/-- Generic simulation lemma: a backend whose enqueue appends to the
abstraction and whose dequeue pops its head refines the reference FIFO
queue.  `B` bounds the queue length reachable during the run (used by
the map backend, whose sequence space is `2 ^ 64`). -/
theorem runQ_sim {T S : Type} (enq : S → T → S) (deq : S → Option T × S)
    (inv : S → Prop) (abs : S → List T) (B : Nat)
    (h_enq : ∀ s v, inv s → (abs s).length + 1 ≤ B →
      inv (enq s v) ∧ abs (enq s v) = abs s ++ [v])
    (h_deq : ∀ s x xs, inv s → abs s = x :: xs →
      (deq s).1 = some x ∧ inv (deq s).2 ∧ abs (deq s).2 = xs) :
    ∀ (ops : List (Op T)) (s : S), inv s →
      specValid ops (abs s).length = true →
      (abs s).length + ops.length ≤ B →
      ∃ s', runQ enq deq ops s =
          some (s', (abs s ++ enqs ops).take (deqCount ops)) ∧
        inv s' ∧ abs s' = (abs s ++ enqs ops).drop (deqCount ops) := by
  intro ops
  induction ops with
  | nil =>
    intro s hinv _ _
    exact ⟨s, by simp [runQ, enqs, deqCount], hinv, by simp [enqs, deqCount]⟩
  | cons op r ih =>
    intro s hinv hval hB
    cases op with
    | enq v =>
      simp only [specValid] at hval
      have he := h_enq s v hinv (by simp only [List.length_cons] at hB; omega)
      have habs' : (abs (enq s v)).length = (abs s).length + 1 := by
        rw [he.2]; simp
      have hval' : specValid r (abs (enq s v)).length = true := by
        rw [habs']; exact hval
      have hB' : (abs (enq s v)).length + r.length ≤ B := by
        rw [habs']; simp only [List.length_cons] at hB; omega
      obtain ⟨s', hrun, hinv', habs⟩ := ih (enq s v) he.1 hval' hB'
      refine ⟨s', ?_, hinv', ?_⟩
      · simp only [runQ, hrun, he.2, enqs, deqCount, List.append_assoc,
          List.singleton_append]
      · rw [habs, he.2]
        simp only [enqs, List.append_assoc, List.singleton_append, deqCount]
    | deq =>
      simp only [specValid, Bool.and_eq_true, decide_eq_true_eq] at hval
      obtain ⟨hne, hval⟩ := hval
      obtain ⟨x, xs, hxs⟩ : ∃ x xs, abs s = x :: xs := by
        cases h : abs s with
        | nil => rw [h] at hne; simp at hne
        | cons a l => exact ⟨a, l, rfl⟩
      have hd := h_deq s x xs hinv hxs
      have hlen : (abs (deq s).2).length = (abs s).length - 1 := by
        rw [hd.2.2, hxs]; simp
      have hval' : specValid r (abs (deq s).2).length = true := by
        rw [hlen]; exact hval
      have hB' : (abs (deq s).2).length + r.length ≤ B := by
        simp only [List.length_cons] at hB; omega
      obtain ⟨s', hrun, hinv', habs⟩ := ih (deq s).2 hd.2.1 hval' hB'
      refine ⟨s', ?_, hinv', ?_⟩
      · simp only [runQ]
        have hds : deq s = (some x, (deq s).2) := by
          cases h : deq s with
          | mk a b => rw [h] at hd; simp at hd; simp [hd.1]
        rw [hds]
        rw [hd.2.2] at hrun
        simp only [hrun, hxs, deqCount, enqs, List.cons_append,
          List.take_succ_cons]
      · rw [habs, hd.2.2]
        simp only [hxs, deqCount, enqs, List.cons_append, List.drop_succ_cons]

-- ## Contiguous-buffer (slice) backend

/-- Go `sliceQueue[T]`: the slice's elements, its capacity, and
whether the slice is still `nil` (the zero value). -/
structure sliceQueue (T : Type) where
  data : List T
  cp : Nat
  isNil : Bool
deriving DecidableEq

/-- The zero value of `sliceQueue`: a nil slice. -/
def sliceEmpty {T : Type} : sliceQueue T := ⟨[], 0, true⟩

/-- Go `(*sliceQueue).Len`: `len(*sq)`. -/
def sliceLen {T : Type} (s : sliceQueue T) : Int := s.data.length

/-- Go `(*sliceQueue).checkShrink`: on a permitted shrink, copy the
elements into a fresh buffer of the computed capacity. -/
def sliceCheckShrink {T : Type} (t : Tunables) (s : sliceQueue T) : sliceQueue T :=
  match shouldShrink t s.data.length s.cp with
  | (nl, ok) => if ok then ⟨s.data, nl, s.isNil⟩ else s

/-- Go `(*sliceQueue).Dequeue`: `v := (*sq)[0]; *sq = (*sq)[1:]`,
then `checkShrink`.  Indexing an empty slice panics (index error);
re-slicing decrements the capacity by one. -/
def sliceDequeue {T : Type} (t : Tunables) (s : sliceQueue T) :
    Option T × sliceQueue T :=
  match s.data with
  | [] => (none, s)
  | v :: rest => (some v, sliceCheckShrink t ⟨rest, s.cp - 1, s.isNil⟩)

/-- Go `(*sliceQueue).Enqueue`: lazily allocate a buffer of capacity
`baseLen` when the slice is nil, then `append`.  `g` models the
unspecified capacity the Go runtime chooses when `append` must grow a
full buffer. -/
def sliceEnqueue {T : Type} (t : Tunables) (g : Nat → Nat) (s : sliceQueue T)
    (v : T) : sliceQueue T :=
  let s1 := if s.isNil then (⟨s.data, t.baseLen, false⟩ : sliceQueue T) else s
  if s1.data.length < s1.cp then ⟨s1.data ++ [v], s1.cp, s1.isNil⟩
  else ⟨s1.data ++ [v], g s1.cp, s1.isNil⟩

/-- Abstraction of the slice backend: the slice's elements. -/
def sliceAbs {T : Type} (s : sliceQueue T) : List T := s.data

/-- Run a list of operations against the slice backend from the zero value. -/
def sliceRun {T : Type} (t : Tunables) (g : Nat → Nat) (ops : List (Op T)) :
    Option (sliceQueue T × List T) :=
  runQ (sliceEnqueue t g) (sliceDequeue t) ops sliceEmpty

theorem slice_h_enq {T : Type} (t : Tunables) (g : Nat → Nat)
    (s : sliceQueue T) (v : T) :
    sliceAbs (sliceEnqueue t g s v) = sliceAbs s ++ [v] := by
  simp only [sliceEnqueue, sliceAbs]
  cases s.isNil <;> simp <;> split <;> rfl

theorem slice_h_deq {T : Type} (t : Tunables) (s : sliceQueue T) (x : T)
    (xs : List T) (h : sliceAbs s = x :: xs) :
    (sliceDequeue t s).1 = some x ∧ sliceAbs (sliceDequeue t s).2 = xs := by
  simp only [sliceAbs] at h
  refine ⟨by simp [sliceDequeue, h], ?_⟩
  simp only [sliceDequeue, h]
  rcases hs : shouldShrink t xs.length (s.cp - 1) with ⟨nl, ok⟩
  simp only [sliceCheckShrink, hs]
  cases ok <;> rfl

-- ## Linked-list backend

/-- Go `linkedListQueue[T]`: the `len` counter and the chain of node
values from `head` to `tail`. -/
structure linkedListQueue (T : Type) where
  len : Int
  list : List T
deriving DecidableEq

/-- The zero value of `linkedListQueue`. -/
def llEmpty {T : Type} : linkedListQueue T := ⟨0, []⟩

/-- Go `(*linkedListQueue).Len`. -/
def llLen {T : Type} (s : linkedListQueue T) : Int := s.len

/-- Go `(*linkedListQueue).Dequeue`: panics when `head == nil` before
touching any state; otherwise decrements `len` and advances `head`. -/
def llDequeue {T : Type} (s : linkedListQueue T) :
    Option T × linkedListQueue T :=
  match s.list with
  | [] => (none, s)
  | v :: rest => (some v, ⟨s.len - 1, rest⟩)

/-- Go `(*linkedListQueue).Enqueue`: increments `len` and links a new
node after `tail`. -/
def llEnqueue {T : Type} (s : linkedListQueue T) (v : T) : linkedListQueue T :=
  ⟨s.len + 1, s.list ++ [v]⟩

/-- Abstraction of the linked-list backend. -/
def llAbs {T : Type} (s : linkedListQueue T) : List T := s.list

/-- Well-formedness of the linked-list backend: the counter agrees
with the chain length. -/
def llInv {T : Type} (s : linkedListQueue T) : Prop := s.len = s.list.length

/-- Run a list of operations against the linked-list backend. -/
def llRun {T : Type} (ops : List (Op T)) : Option (linkedListQueue T × List T) :=
  runQ llEnqueue llDequeue ops llEmpty

-- ## Pooled linked-list backend

/-- Go `linkedListPooledQueue[T]`: the `len` counter and the chain of
node values; the `sync.Pool` hands out raw nodes whose fields are
overwritten on `Enqueue`, so it carries no observable state. -/
structure pooledQueue (T : Type) where
  len : Int
  list : List T
deriving DecidableEq

/-- Go `newPooled`: an empty queue with a fresh pool. -/
def newPooled {T : Type} : pooledQueue T := ⟨0, []⟩

/-- Go `(*linkedListPooledQueue).Len`. -/
def llpLen {T : Type} (s : pooledQueue T) : Int := s.len

/-- Go `(*linkedListPooledQueue).Dequeue`: `sq.len--` executes before
the `sq.head == nil` check, so a dequeue on an empty queue panics with
the counter already decremented. -/
def llpDequeue {T : Type} (s : pooledQueue T) : Option T × pooledQueue T :=
  match s.list with
  | [] => (none, ⟨s.len - 1, []⟩)
  | v :: rest => (some v, ⟨s.len - 1, rest⟩)

/-- Go `(*linkedListPooledQueue).Enqueue`: increments `len`, takes a
node from the pool, overwrites its value and link, and appends it. -/
def llpEnqueue {T : Type} (s : pooledQueue T) (v : T) : pooledQueue T :=
  ⟨s.len + 1, s.list ++ [v]⟩

/-- Abstraction of the pooled linked-list backend. -/
def llpAbs {T : Type} (s : pooledQueue T) : List T := s.list

/-- Well-formedness of the pooled backend: counter agrees with chain. -/
def llpInv {T : Type} (s : pooledQueue T) : Prop := s.len = s.list.length

/-- Run a list of operations against the pooled backend. -/
def llpRun {T : Type} (ops : List (Op T)) : Option (pooledQueue T × List T) :=
  runQ llpEnqueue llpDequeue ops newPooled

-- ## Channel-backed backend

/-- Go `chanQueue[T]`: the buffered elements of the channel in FIFO
order, and the channel's capacity. -/
structure chanQueue (T : Type) where
  buf : List T
  cp : Nat
deriving DecidableEq

/-- Go `newChanQueue`: a channel of capacity `baseLen`. -/
def newChanQueue {T : Type} (t : Tunables) : chanQueue T := ⟨[], t.baseLen⟩

/-- Go `(*chanQueue).Len`: `len(*cq)`, the buffered count. -/
def chanLen {T : Type} (s : chanQueue T) : Int := s.buf.length

/-- Go `(*chanQueue).checkShrink`: on a permitted shrink, make a
channel of the computed capacity and drain the old one into it with
`copyChan`, preserving FIFO order. -/
def chanCheckShrink {T : Type} (t : Tunables) (s : chanQueue T) : chanQueue T :=
  match shouldShrink t s.buf.length s.cp with
  | (nl, ok) => if ok then ⟨s.buf, nl⟩ else s

/-- Go `(*chanQueue).Dequeue`: a `select` with a `default` branch that
panics when the channel is empty (it never waits for a producer); a
successful receive is followed by the shrink check. -/
def chanDequeue {T : Type} (t : Tunables) (s : chanQueue T) :
    Option T × chanQueue T :=
  match s.buf with
  | [] => (none, s)
  | v :: rest => (some v, chanCheckShrink t ⟨rest, s.cp⟩)

/-- Go `(*chanQueue).Enqueue`: a non-blocking send; when the channel
is full, make a channel of doubled capacity, drain the old one into it
with `copyChan`, then send the new element. -/
def chanEnqueue {T : Type} (s : chanQueue T) (v : T) : chanQueue T :=
  if s.buf.length < s.cp then ⟨s.buf ++ [v], s.cp⟩
  else ⟨s.buf ++ [v], s.cp * growthFactor⟩

/-- Whether the grow path of the Go `Enqueue` would block: the drain
plus the final send place `len(buf) + 1` elements into a fresh channel
of capacity `cap * growthFactor`. -/
def chanEnqueueWouldBlock {T : Type} (s : chanQueue T) : Bool :=
  if s.buf.length < s.cp then false
  else decide (s.cp * growthFactor < s.buf.length + 1)

/-- Whether the drain performed by a permitted shrink would block: it
places `len(buf)` elements into a fresh channel of the computed
capacity. -/
def chanShrinkWouldBlock {T : Type} (t : Tunables) (s : chanQueue T) : Bool :=
  match shouldShrink t s.buf.length s.cp with
  | (nl, ok) => ok && decide (nl < s.buf.length)

/-- Abstraction of the channel backend. -/
def chanAbs {T : Type} (s : chanQueue T) : List T := s.buf

/-- Well-formedness of the channel backend: the buffered count never
exceeds the capacity, and the capacity is positive. -/
def chanInv {T : Type} (s : chanQueue T) : Prop :=
  s.buf.length ≤ s.cp ∧ 1 ≤ s.cp

/-- Run a list of operations against the channel backend from
`newChanQueue`. -/
def chanRun {T : Type} (t : Tunables) (ops : List (Op T)) :
    Option (chanQueue T × List T) :=
  runQ chanEnqueue (chanDequeue t) ops (newChanQueue t)

theorem chan_h_enq {T : Type} (s : chanQueue T) (v : T) (h : chanInv s) :
    chanInv (chanEnqueue s v) ∧ chanAbs (chanEnqueue s v) = chanAbs s ++ [v] := by
  obtain ⟨h1, h2⟩ := h
  simp only [chanEnqueue, chanInv, chanAbs]
  split
  · refine ⟨⟨?_, h2⟩, rfl⟩
    simp only [List.length_append, List.length_cons, List.length_nil]
    omega
  · rename_i hf
    refine ⟨⟨?_, ?_⟩, rfl⟩
    · simp only [List.length_append, List.length_cons, List.length_nil, growthFactor]
      omega
    · simp only [growthFactor]; omega

theorem shouldShrink_pos {t : Tunables} {l c nl : Nat}
    (h : shouldShrink t l c = (nl, true)) : l ≤ nl ∧ (1 ≤ l → 1 ≤ nl) := by
  simp only [shouldShrink, Prod.mk.injEq, Bool.and_eq_true, decide_eq_true_eq,
    growthFactor] at h
  omega

theorem chan_h_deq {T : Type} (t : Tunables) (s : chanQueue T) (x : T)
    (xs : List T) (h : chanInv s) (habs : chanAbs s = x :: xs) :
    (chanDequeue t s).1 = some x ∧ chanInv (chanDequeue t s).2 ∧
      chanAbs (chanDequeue t s).2 = xs := by
  obtain ⟨h1, h2⟩ := h
  simp only [chanAbs] at habs
  rw [habs] at h1
  simp only [List.length_cons] at h1
  refine ⟨?_, ?_, ?_⟩
  · simp [chanDequeue, habs]
  · simp only [chanDequeue, habs]
    rcases hs : shouldShrink t xs.length s.cp with ⟨nl, ok⟩
    simp only [chanCheckShrink, hs]
    cases ok with
    | false =>
      simp only [Bool.false_eq_true, if_false, chanInv]
      exact ⟨by omega, h2⟩
    | true =>
      simp only [if_true, chanInv]
      simp only [shouldShrink, Prod.mk.injEq, Bool.and_eq_true,
        decide_eq_true_eq, growthFactor] at hs
      constructor <;> omega
  · simp only [chanDequeue, habs]
    rcases hs : shouldShrink t xs.length s.cp with ⟨nl, ok⟩
    simp only [chanCheckShrink, hs]
    cases ok <;> simp [chanAbs]

-- ## Ring-buffer backend

/-- Go `ringQueue[T]`: physical head index `first`, length `l`, and
the backing buffer. -/
structure ringQueue (T : Type) where
  first : Nat
  l : Nat
  buf : List T
deriving DecidableEq

/-- The zero value of `ringQueue`. -/
def ringEmpty {T : Type} : ringQueue T := ⟨0, 0, []⟩

/-- Go `(*ringQueue).Len`. -/
def ringLen {T : Type} (q : ringQueue T) : Int := q.l

/-- Go's built-in `copy(dst, src)`: overwrite the first
`min(len(dst), len(src))` cells of `dst` with the corresponding cells
of `src`; the rest of `dst` is untouched. -/
def goCopy {T : Type} (dst src : List T) : List T :=
  src.take dst.length ++ dst.drop (min dst.length src.length)

/-- Go `(*ringQueue).swapBuf`: linearize the circular contents into
the fresh buffer `n` starting at physical offset 0 and reset `first`
to 0.  In the wraparound case (`first + l > len(buf)`) the tail
segment `buf[first:]` is copied first (Go `copy` returns the count
`skip`), then the head segment `buf[:l-skip]` is copied after it. -/
def swapBuf {T : Type} (q : ringQueue T) (n : List T) : ringQueue T :=
  if q.buf.length < q.first + q.l then
    let skip := min n.length (q.buf.length - q.first)
    let n1 := goCopy n (q.buf.drop q.first)
    ⟨0, q.l, n1.take skip ++ goCopy (n1.drop skip) (q.buf.take (q.l - skip))⟩
  else
    ⟨0, q.l, goCopy n ((q.buf.drop q.first).take q.l)⟩

/-- Go `(*ringQueue).checkShrink`: on a permitted shrink, rebuild into
a fresh zero-filled buffer of the computed capacity. -/
def ringCheckShrink {T : Type} [Inhabited T] (t : Tunables) (q : ringQueue T) :
    ringQueue T :=
  match shouldShrink t q.l q.buf.length with
  | (nl, ok) => if ok then swapBuf q (List.replicate nl default) else q

/-- Go `(*ringQueue).Dequeue`: panic when `l == 0`; otherwise read the
cell at `first`, advance `first` circularly, decrement `l`, and run
the shrink check. -/
def ringDequeue {T : Type} [Inhabited T] (t : Tunables) (q : ringQueue T) :
    Option T × ringQueue T :=
  if q.l = 0 then (none, q)
  else (some (q.buf.getD q.first default),
    ringCheckShrink t ⟨(q.first + 1) % q.buf.length, q.l - 1, q.buf⟩)

/-- Go `(*ringQueue).grow`: rebuild into a fresh zero-filled buffer of
size `max(growthFactor*len(buf), baseLen)`. -/
def ringGrow {T : Type} [Inhabited T] (t : Tunables) (q : ringQueue T) :
    ringQueue T :=
  swapBuf q (List.replicate (max (growthFactor * q.buf.length) t.baseLen) default)

/-- Go `(*ringQueue).Enqueue`: grow when `l+1` exceeds the capacity,
then place the element at `(first+l) mod len(buf)` and increment `l`. -/
def ringEnqueue {T : Type} [Inhabited T] (t : Tunables) (q : ringQueue T)
    (v : T) : ringQueue T :=
  let q1 := if q.buf.length < q.l + 1 then ringGrow t q else q
  ⟨q1.first, q1.l + 1, q1.buf.set ((q1.first + q1.l) % q1.buf.length) v⟩

/-- Abstraction of the ring backend: the `l` live elements read
circularly from `first`, i.e. the first `l` cells of the buffer
rotated by `first`. -/
def ringAbs {T : Type} (q : ringQueue T) : List T :=
  ((q.buf.drop q.first) ++ (q.buf.take q.first)).take q.l

/-- Well-formedness of the ring backend: the length fits in the
buffer, and the head index is in bounds (or the buffer is the empty
zero-value buffer with head 0). -/
def ringInv {T : Type} (q : ringQueue T) : Prop :=
  q.l ≤ q.buf.length ∧ (q.first < q.buf.length ∨ (q.first = 0 ∧ q.buf.length = 0))

/-- Run a list of operations against the ring backend from the zero value. -/
def ringRun {T : Type} [Inhabited T] (t : Tunables) (ops : List (Op T)) :
    Option (ringQueue T × List T) :=
  runQ (ringEnqueue t) (ringDequeue t) ops ringEmpty

-- ## Sparse-index (map) backend

/-- The size of the Go `uint64` sequence space. -/
def U64 : Nat := 2 ^ 64

/-- Go `mapQueue[T]`: `first` and `last` are `uint64` counters
(modelled as naturals below `U64`); the Go map from `uint64` keys to
values is modelled as an association list of its entries (reachable
states keep it keyed by the consecutive sequence numbers
`first..last-1`, in insertion order). -/
structure mapQueue (T : Type) where
  first : Nat
  last : Nat
  mem : List (Nat × T)
deriving DecidableEq

/-- Go `newMapQueue`: empty map, both counters zero. -/
def newMapQueue {T : Type} : mapQueue T := ⟨0, 0, []⟩

/-- Go `(*mapQueue).Len`: `len(mq.mem)`, the number of keys. -/
def mapLen {T : Type} (q : mapQueue T) : Int := q.mem.length

/-- Go map read `m[k]` on the association list: the stored value, or
the zero value when the key is absent. -/
def memGetD {T : Type} [Inhabited T] (m : List (Nat × T)) (k : Nat) : T :=
  match m.find? (fun p => p.1 == k) with
  | some p => p.2
  | none => default

/-- Go map write `m[k] = v` on the association list: replace the
entry if the key is present, otherwise add it. -/
def memSet {T : Type} (m : List (Nat × T)) (k : Nat) (v : T) : List (Nat × T) :=
  if m.any (fun p => p.1 == k) then
    m.map (fun p => if p.1 == k then (k, v) else p)
  else m ++ [(k, v)]

/-- Go `delete(m, k)` on the association list. -/
def memDelete {T : Type} (m : List (Nat × T)) (k : Nat) : List (Nat × T) :=
  m.filter (fun p => p.1 != k)

/-- Go `(*mapQueue).Dequeue`: panic when the map is empty; otherwise
read and delete the entry at key `first` and increment `first`
(wrapping as a `uint64`). -/
def mapDequeue {T : Type} [Inhabited T] (q : mapQueue T) :
    Option T × mapQueue T :=
  if q.mem.length = 0 then (none, q)
  else (some (memGetD q.mem q.first),
    ⟨(q.first + 1) % U64, q.last, memDelete q.mem q.first⟩)

/-- Go `(*mapQueue).Enqueue`: store at key `last` and increment `last`
(wrapping as a `uint64`).  The Go code then panics when `last` has
wrapped all the way around to `first`; `mapEnqueuePanics` captures
that condition, which `mapEnqueue_no_panic` below shows unreachable
while fewer than `U64` elements are stored. -/
def mapEnqueue {T : Type} (q : mapQueue T) (v : T) : mapQueue T :=
  ⟨q.first, (q.last + 1) % U64, memSet q.mem q.last v⟩

/-- The sequence-space-exhaustion panic condition of the Go
`(*mapQueue).Enqueue`, checked after the increment of `last`. -/
def mapEnqueuePanics {T : Type} (q : mapQueue T) : Bool :=
  ((q.last + 1) % U64) == q.first

/-- Abstraction of the map backend: the stored values in insertion
order. -/
def mapAbs {T : Type} (q : mapQueue T) : List T := q.mem.map Prod.snd

/-- Well-formedness of the map backend: both counters are reduced
`uint64` values, fewer than `U64` entries are stored, `last` is
`first` plus the entry count, and the `i`-th entry is keyed by
`first + i` (as a `uint64`). -/
def mapInv {T : Type} (q : mapQueue T) : Prop :=
  q.first < U64 ∧ q.mem.length < U64 ∧
    q.last = (q.first + q.mem.length) % U64 ∧
    ∀ i, (h : i < q.mem.length) → (q.mem.get ⟨i, h⟩).1 = (q.first + i) % U64

/-- Run a list of operations against the map backend from
`newMapQueue`. -/
def mapRun {T : Type} [Inhabited T] (ops : List (Op T)) :
    Option (mapQueue T × List T) :=
  runQ mapEnqueue mapDequeue ops newMapQueue

-- ## Decidability of the invariants (used to evaluate them on concrete states)

instance {T : Type} (s : linkedListQueue T) : Decidable (llInv s) := by
  unfold llInv; infer_instance

instance {T : Type} (s : pooledQueue T) : Decidable (llpInv s) := by
  unfold llpInv; infer_instance

instance {T : Type} (s : chanQueue T) : Decidable (chanInv s) := by
  unfold chanInv; infer_instance

instance {T : Type} (q : ringQueue T) : Decidable (ringInv q) := by
  unfold ringInv; infer_instance

instance {T : Type} (q : mapQueue T) : Decidable (mapInv q) := by
  unfold mapInv; infer_instance

-- ## List helper lemmas for the ring backend

theorem goCopy_length {T : Type} (dst src : List T) :
    (goCopy dst src).length = dst.length := by
  unfold goCopy
  rw [List.length_append, List.length_take, List.length_drop]
  omega

theorem goCopy_of_le {T : Type} (dst src : List T)
    (h : src.length ≤ dst.length) :
    goCopy dst src = src ++ dst.drop src.length := by
  unfold goCopy
  rw [List.take_of_length_le h, min_eq_right h]

theorem rot_length {T : Type} (buf : List T) (f : Nat) :
    (buf.drop f ++ buf.take f).length = buf.length := by
  rw [List.length_append, List.length_drop, List.length_take]
  omega

theorem rot_getElem? {T : Type} (buf : List T) (f n : Nat) (hf : f < buf.length) :
    (buf.drop f ++ buf.take f)[n]? =
      if n < buf.length then buf[(f + n) % buf.length]? else none := by
  have hmod : n < buf.length →
      (f + n) % buf.length =
        if f + n < buf.length then f + n else f + n - buf.length := by
    intro hn
    split
    · exact Nat.mod_eq_of_lt (by omega)
    · rw [Nat.mod_eq_sub_mod (by omega)]
      exact Nat.mod_eq_of_lt (by omega)
  rw [List.getElem?_append, List.length_drop, List.getElem?_take, List.getElem?_drop]
  by_cases hn : n < buf.length
  · rw [if_pos hn, hmod hn]
    by_cases h1 : n < buf.length - f
    · rw [if_pos h1, if_pos (by omega)]
    · rw [if_neg h1, if_pos (by omega), if_neg (by omega)]
      congr 1
      omega
  · rw [if_neg hn, if_neg (by omega), if_neg (by omega)]

theorem add_mod_inj (N a i j : Nat) (hi : i < N) (hj : j < N)
    (h : (a + i) % N = (a + j) % N) : i = j := by
  have h2 : i ≡ j [MOD N] := Nat.ModEq.add_left_cancel' a h
  unfold Nat.ModEq at h2
  rwa [Nat.mod_eq_of_lt hi, Nat.mod_eq_of_lt hj] at h2

theorem take_set_last {T : Type} (xs : List T) (l : Nat) (v : T)
    (h : l < xs.length) :
    (xs.set l v).take (l + 1) = xs.take l ++ [v] := by
  rw [List.set_eq_take_append_cons_drop, if_pos h]
  have hA : (List.take l xs).length = l := by rw [List.length_take]; omega
  rw [show l + 1 = (List.take l xs).length + 1 from by rw [hA]]
  rw [List.take_append]
  simp

theorem rot_set {T : Type} (b : List T) (f l : Nat) (v : T)
    (hf : f < b.length) (hl : l < b.length) :
    (b.set ((f + l) % b.length) v).drop f ++ (b.set ((f + l) % b.length) v).take f
      = (b.drop f ++ b.take f).set l v := by
  have hlen0 : 0 < b.length := by omega
  have hp : (f + l) % b.length < b.length := Nat.mod_lt _ hlen0
  apply List.ext_getElem?
  intro n
  have h1 : (b.set ((f + l) % b.length) v).length = b.length := List.length_set ..
  have h2 := rot_getElem? (b.set ((f + l) % b.length) v) f n (by rw [h1]; exact hf)
  rw [h1] at h2
  rw [h2]
  by_cases hn : n < b.length
  · rw [if_pos hn]
    by_cases heq : l = n
    · subst heq
      have e1 : (b.set ((f + l) % b.length) v)[(f + l) % b.length]? = some v := by
        rw [List.getElem?_set]
        simp [hp]
      have e2 : ((b.drop f ++ b.take f).set l v)[l]? = some v := by
        rw [List.getElem?_set]
        simp only [if_pos rfl, List.length_append, List.length_drop,
          List.length_take, if_true]
        rw [if_pos (by omega)]
      rw [e1, e2]
    · have hne : (f + l) % b.length ≠ (f + n) % b.length := by
        intro hcontra
        exact heq (add_mod_inj b.length f l n hl hn hcontra)
      rw [List.getElem?_set_ne hne, List.getElem?_set_ne heq,
        rot_getElem? b f n hf, if_pos hn]
  · rw [if_neg hn]
    rw [List.getElem?_set_ne (show l ≠ n by omega)]
    have : (b.drop f ++ b.take f)[n]? = none := by
      apply List.getElem?_eq_none
      rw [rot_length]
      omega
    rw [this]

-- ## swapBuf: the linearizing buffer rebuild

theorem swapBuf_wrap_eq {T : Type} (q : ringQueue T) (n : List T)
    (hw : q.buf.length < q.first + q.l) :
    swapBuf q n = ⟨0, q.l,
      (goCopy n (q.buf.drop q.first)).take (min n.length (q.buf.length - q.first)) ++
        goCopy ((goCopy n (q.buf.drop q.first)).drop
            (min n.length (q.buf.length - q.first)))
          (q.buf.take (q.l - min n.length (q.buf.length - q.first)))⟩ := by
  unfold swapBuf
  rw [if_pos hw]

theorem swapBuf_nowrap_eq {T : Type} (q : ringQueue T) (n : List T)
    (hw : ¬ q.buf.length < q.first + q.l) :
    swapBuf q n = ⟨0, q.l, goCopy n ((q.buf.drop q.first).take q.l)⟩ := by
  unfold swapBuf
  rw [if_neg hw]

theorem swapBuf_spec {T : Type} (q : ringQueue T) (n : List T)
    (hinv : ringInv q) (hn : q.l ≤ n.length) :
    (swapBuf q n).first = 0 ∧ (swapBuf q n).l = q.l ∧
      (swapBuf q n).buf.length = n.length ∧
      (swapBuf q n).buf.take q.l = ringAbs q := by
  obtain ⟨hl, hor⟩ := hinv
  by_cases hw : q.buf.length < q.first + q.l
  · -- wraparound: the live window spans the end and the start of the buffer
    have hfl : q.first < q.buf.length := by
      rcases hor with h | h
      · exact h
      · omega
    have hskip : min n.length (q.buf.length - q.first) =
        q.buf.length - q.first := min_eq_right (by omega)
    have hA : (q.buf.drop q.first).length = q.buf.length - q.first :=
      List.length_drop ..
    have hn1 : goCopy n (q.buf.drop q.first) =
        q.buf.drop q.first ++ n.drop (q.buf.length - q.first) := by
      rw [goCopy_of_le _ _ (by rw [hA]; omega), hA]
    have piece1 : (goCopy n (q.buf.drop q.first)).take (q.buf.length - q.first) =
        q.buf.drop q.first := by
      rw [hn1]
      have := List.take_left (q.buf.drop q.first) (n.drop (q.buf.length - q.first))
      rwa [hA] at this
    have piece2 : (goCopy n (q.buf.drop q.first)).drop (q.buf.length - q.first) =
        n.drop (q.buf.length - q.first) := by
      rw [hn1]
      have := List.drop_left (q.buf.drop q.first) (n.drop (q.buf.length - q.first))
      rwa [hA] at this
    have hsl2 : (q.buf.take (q.l - (q.buf.length - q.first))).length =
        q.l - (q.buf.length - q.first) := by
      rw [List.length_take]; omega
    have hcopy2 : goCopy ((goCopy n (q.buf.drop q.first)).drop
          (q.buf.length - q.first))
        (q.buf.take (q.l - (q.buf.length - q.first))) =
        q.buf.take (q.l - (q.buf.length - q.first)) ++
          (n.drop (q.buf.length - q.first)).drop (q.l - (q.buf.length - q.first)) := by
      rw [piece2, goCopy_of_le _ _ (by rw [hsl2, List.length_drop]; omega), hsl2]
    rw [swapBuf_wrap_eq q n hw, hskip]
    refine ⟨rfl, rfl, ?_, ?_⟩
    · rw [List.length_append, List.length_take, goCopy_length, goCopy_length,
        List.length_drop, goCopy_length]
      omega
    · rw [piece1, hcopy2, ← List.append_assoc]
      have hC : (q.buf.drop q.first ++
          q.buf.take (q.l - (q.buf.length - q.first))).length = q.l := by
        rw [List.length_append, hA, hsl2]; omega
      have habsq : ringAbs q =
          q.buf.drop q.first ++ q.buf.take (q.l - (q.buf.length - q.first)) := by
        unfold ringAbs
        rw [List.take_append_eq_append_take, hA]
        congr 1
        · exact List.take_of_length_le (by rw [hA]; omega)
        · rw [List.take_take,
            min_eq_left (by omega : q.l - (q.buf.length - q.first) ≤ q.first)]
      rw [List.take_append_of_le_length (le_of_eq hC.symm),
        List.take_of_length_le (le_of_eq hC), habsq]
  · -- no wraparound: the live window is contiguous
    have hsl : ((q.buf.drop q.first).take q.l).length = q.l := by
      rw [List.length_take, List.length_drop]; omega
    have hcopy : goCopy n ((q.buf.drop q.first).take q.l) =
        (q.buf.drop q.first).take q.l ++ n.drop q.l := by
      rw [goCopy_of_le _ _ (by rw [hsl]; exact hn), hsl]
    rw [swapBuf_nowrap_eq q n hw]
    refine ⟨rfl, rfl, by rw [goCopy_length], ?_⟩
    rw [hcopy, List.take_append_of_le_length (le_of_eq hsl.symm),
      List.take_of_length_le (le_of_eq hsl)]
    unfold ringAbs
    rw [List.take_append_of_le_length (by rw [List.length_drop]; omega)]

theorem ringAbs_length {T : Type} (q : ringQueue T) (hinv : ringInv q) :
    (ringAbs q).length = q.l := by
  unfold ringAbs
  rw [List.length_take, rot_length]
  exact min_eq_left hinv.1

theorem ringAbs_swapBuf {T : Type} (q : ringQueue T) (n : List T)
    (hinv : ringInv q) (hn : q.l ≤ n.length) :
    ringAbs (swapBuf q n) = ringAbs q := by
  obtain ⟨h0, hl, hlen, htake⟩ := swapBuf_spec q n hinv hn
  unfold ringAbs
  rw [h0, hl, List.drop_zero, List.take_zero, List.append_nil, htake]
  rfl

theorem ringInv_swapBuf {T : Type} (q : ringQueue T) (n : List T)
    (hinv : ringInv q) (hn : q.l ≤ n.length) :
    ringInv (swapBuf q n) := by
  obtain ⟨h0, hl, hlen, _⟩ := swapBuf_spec q n hinv hn
  constructor
  · rw [hl, hlen]; exact hn
  · rcases Nat.eq_zero_or_pos n.length with h | h
    · right; rw [h0, hlen, h]; exact ⟨rfl, rfl⟩
    · left; rw [h0, hlen]; exact h

theorem ringCheckShrink_spec {T : Type} [Inhabited T] (t : Tunables)
    (q : ringQueue T) (hinv : ringInv q) :
    ringInv (ringCheckShrink t q) ∧ ringAbs (ringCheckShrink t q) = ringAbs q := by
  unfold ringCheckShrink
  rcases hs : shouldShrink t q.l q.buf.length with ⟨nl, ok⟩
  cases ok with
  | false =>
    simp only [Bool.false_eq_true, if_false]
    exact ⟨hinv, trivial⟩
  | true =>
    simp only [if_true]
    have hle : q.l ≤ nl := by
      simp only [shouldShrink, Prod.mk.injEq, growthFactor] at hs
      omega
    have hn : q.l ≤ (List.replicate nl (default : T)).length := by
      rw [List.length_replicate]; exact hle
    exact ⟨ringInv_swapBuf q _ hinv hn, ringAbs_swapBuf q _ hinv hn⟩

theorem ringGrow_spec {T : Type} [Inhabited T] (t : Tunables) (q : ringQueue T)
    (hinv : ringInv q) (hbase : 1 ≤ t.baseLen) :
    ringInv (ringGrow t q) ∧ ringAbs (ringGrow t q) = ringAbs q ∧
      (ringGrow t q).l = q.l ∧ (ringGrow t q).first = 0 ∧
      (ringGrow t q).buf.length = max (growthFactor * q.buf.length) t.baseLen ∧
      q.l + 1 ≤ (ringGrow t q).buf.length := by
  have hn : q.l ≤ (List.replicate (max (growthFactor * q.buf.length) t.baseLen)
      (default : T)).length := by
    rw [List.length_replicate]
    have := hinv.1
    simp only [growthFactor]
    omega
  obtain ⟨h0, hl, hlen, _⟩ := swapBuf_spec q _ hinv hn
  refine ⟨ringInv_swapBuf q _ hinv hn, ringAbs_swapBuf q _ hinv hn, hl, h0, ?_, ?_⟩
  · rw [ringGrow, hlen, List.length_replicate]
  · rw [ringGrow, hlen, List.length_replicate]
    have := hinv.1
    simp only [growthFactor]
    omega

theorem ringAbs_set {T : Type} (q1 : ringQueue T) (v : T)
    (hf : q1.first < q1.buf.length) (hfit : q1.l + 1 ≤ q1.buf.length) :
    ringAbs ⟨q1.first, q1.l + 1,
        q1.buf.set ((q1.first + q1.l) % q1.buf.length) v⟩ =
      ringAbs q1 ++ [v] := by
  unfold ringAbs
  simp only
  rw [rot_set q1.buf q1.first q1.l v hf (by omega)]
  rw [take_set_last _ _ _ (by rw [rot_length]; omega)]

theorem ringEnqueue_grow_eq {T : Type} [Inhabited T] (t : Tunables)
    (q : ringQueue T) (v : T) (hg : q.buf.length < q.l + 1) :
    ringEnqueue t q v = ⟨(ringGrow t q).first, (ringGrow t q).l + 1,
      (ringGrow t q).buf.set
        (((ringGrow t q).first + (ringGrow t q).l) % (ringGrow t q).buf.length)
        v⟩ := by
  unfold ringEnqueue
  rw [if_pos hg]

theorem ringEnqueue_nogrow_eq {T : Type} [Inhabited T] (t : Tunables)
    (q : ringQueue T) (v : T) (hg : ¬ q.buf.length < q.l + 1) :
    ringEnqueue t q v =
      ⟨q.first, q.l + 1, q.buf.set ((q.first + q.l) % q.buf.length) v⟩ := by
  unfold ringEnqueue
  rw [if_neg hg]

theorem ring_set_step {T : Type} (q : ringQueue T) (q1 : ringQueue T) (v : T)
    (hinv1 : ringInv q1) (hfit : q.l + 1 ≤ q1.buf.length) (hl1 : q1.l = q.l) :
    ringInv (⟨q1.first, q1.l + 1,
        q1.buf.set ((q1.first + q1.l) % q1.buf.length) v⟩ : ringQueue T) ∧
      ringAbs (⟨q1.first, q1.l + 1,
          q1.buf.set ((q1.first + q1.l) % q1.buf.length) v⟩ : ringQueue T) =
        ringAbs q1 ++ [v] := by
  have hfit1 : q1.l + 1 ≤ q1.buf.length := hl1 ▸ hfit
  have hflt : q1.first < q1.buf.length := by
    rcases hinv1.2 with h | h
    · exact h
    · omega
  refine ⟨⟨?_, ?_⟩, ?_⟩
  · simp only [List.length_set]; omega
  · left; simp only [List.length_set]; exact hflt
  · exact ringAbs_set q1 v hflt hfit1

theorem ring_h_enq {T : Type} [Inhabited T] (t : Tunables) (q : ringQueue T)
    (v : T) (hbase : 1 ≤ t.baseLen) (hinv : ringInv q) :
    ringInv (ringEnqueue t q v) ∧ ringAbs (ringEnqueue t q v) = ringAbs q ++ [v] := by
  by_cases hg : q.buf.length < q.l + 1
  · rw [ringEnqueue_grow_eq t q v hg]
    obtain ⟨gi, ga, gl, _, _, gfit⟩ := ringGrow_spec t q hinv hbase
    have h2 := ring_set_step q (ringGrow t q) v gi gfit gl
    exact ⟨h2.1, by rw [h2.2, ga]⟩
  · rw [ringEnqueue_nogrow_eq t q v hg]
    exact ring_set_step q q v hinv (by omega) rfl

theorem ringAbs_advance {T : Type} (q : ringQueue T)
    (hf : q.first < q.buf.length) (hl : q.l ≤ q.buf.length) :
    ringAbs ⟨(q.first + 1) % q.buf.length, q.l - 1, q.buf⟩ = (ringAbs q).drop 1 := by
  have hlen0 : 0 < q.buf.length := by omega
  have hf1 : (q.first + 1) % q.buf.length < q.buf.length := Nat.mod_lt _ hlen0
  apply List.ext_getElem?
  intro n
  unfold ringAbs
  simp only
  rw [List.getElem?_drop, List.getElem?_take, List.getElem?_take,
    rot_getElem? q.buf _ n hf1, rot_getElem? q.buf q.first (1 + n) hf,
    Nat.mod_add_mod]
  by_cases h1 : n < q.l - 1
  · rw [if_pos h1, if_pos (by omega), if_pos (by omega), if_pos (by omega)]
    have harith : q.first + (1 + n) = q.first + 1 + n := by omega
    rw [harith]
  · rw [if_neg h1, if_neg (by omega)]

theorem ringDequeue_eq {T : Type} [Inhabited T] (t : Tunables) (q : ringQueue T)
    (hl0 : ¬ q.l = 0) :
    ringDequeue t q = (some (q.buf.getD q.first default),
      ringCheckShrink t ⟨(q.first + 1) % q.buf.length, q.l - 1, q.buf⟩) := by
  unfold ringDequeue
  rw [if_neg hl0]

theorem ring_h_deq {T : Type} [Inhabited T] (t : Tunables) (q : ringQueue T)
    (x : T) (xs : List T) (hinv : ringInv q) (habs : ringAbs q = x :: xs) :
    (ringDequeue t q).1 = some x ∧ ringInv (ringDequeue t q).2 ∧
      ringAbs (ringDequeue t q).2 = xs := by
  have hlq : (ringAbs q).length = q.l := ringAbs_length q hinv
  rw [habs] at hlq
  simp only [List.length_cons] at hlq
  have h1 := hinv.1
  have hl0 : ¬ q.l = 0 := by omega
  have hlen0 : 0 < q.buf.length := by omega
  have hf : q.first < q.buf.length := by
    rcases hinv.2 with h | h
    · exact h
    · omega
  rw [ringDequeue_eq t q hl0]
  have hval : q.buf.getD q.first default = x := by
    have h0 : (ringAbs q)[0]? = some x := by rw [habs]; simp
    unfold ringAbs at h0
    rw [List.getElem?_take, if_pos (by omega),
      rot_getElem? q.buf q.first 0 hf, if_pos (by omega)] at h0
    have hidx : (q.first + 0) % q.buf.length = q.first := by
      rw [Nat.add_zero]
      exact Nat.mod_eq_of_lt hf
    rw [hidx] at h0
    rw [List.getD_eq_getElem?_getD, h0]
    rfl
  have hinv2 : ringInv
      (⟨(q.first + 1) % q.buf.length, q.l - 1, q.buf⟩ : ringQueue T) := by
    constructor
    · simp only; omega
    · left
      simp only
      exact Nat.mod_lt _ hlen0
  have hadv := ringAbs_advance q hf h1
  have hcs := ringCheckShrink_spec t _ hinv2
  refine ⟨?_, hcs.1, ?_⟩
  · show some (q.buf.getD q.first default) = some x
    rw [hval]
  · show ringAbs (ringCheckShrink t _) = xs
    rw [hcs.2, hadv, habs]
    rfl

theorem ringRun_spec {T : Type} [Inhabited T] (t : Tunables)
    (hbase : 1 ≤ t.baseLen) (ops : List (Op T))
    (hval : specValid ops 0 = true) :
    ∃ s', ringRun t ops = some (s', (enqs ops).take (deqCount ops)) ∧
      ringInv s' ∧ ringAbs s' = (enqs ops).drop (deqCount ops) := by
  have habs0 : ringAbs (ringEmpty : ringQueue T) = [] := rfl
  have hsim := runQ_sim (ringEnqueue t) (ringDequeue t) ringInv ringAbs ops.length
    (fun s v hs _ => ring_h_enq t s v hbase hs)
    (fun s x xs hs hx => ring_h_deq t s x xs hs hx)
    ops ringEmpty ⟨Nat.le_refl 0, Or.inr ⟨rfl, rfl⟩⟩
    (by rw [habs0]; exact hval)
    (by rw [habs0]; simp)
  simpa [ringRun, habs0] using hsim

-- ## Map backend lemmas

theorem U64_pos : 0 < U64 := by
  unfold U64
  exact Nat.two_pow_pos 64

theorem memSet_append {T : Type} (m : List (Nat × T)) (k : Nat) (v : T)
    (h : ∀ p ∈ m, (p.1 == k) = false) :
    memSet m k v = m ++ [(k, v)] := by
  unfold memSet
  have hany : m.any (fun p => p.1 == k) = false := by
    rw [List.any_eq_false]
    intro p hp
    rw [h p hp]
    exact Bool.false_ne_true
  rw [hany]
  rfl

theorem map_keys_ne {T : Type} (q : mapQueue T) (hinv : mapInv q)
    (j : Nat) (hj : j < U64)
    (hne : ∀ i, i < q.mem.length → i ≠ j) :
    ∀ p ∈ q.mem, (p.1 == (q.first + j) % U64) = false := by
  obtain ⟨hf, hml, hlast, hkeys⟩ := hinv
  intro p hp
  obtain ⟨⟨i, hi⟩, hget⟩ := List.mem_iff_get.mp hp
  rw [beq_eq_false_iff_ne]
  intro hcontra
  have hkey := hkeys i hi
  rw [hget] at hkey
  rw [hkey] at hcontra
  exact hne i hi (add_mod_inj U64 q.first i j (by omega) hj hcontra)


theorem keys_to_getElem? {T : Type} (m : List (Nat × T)) (f : Nat)
    (hkeys : ∀ i, (h : i < m.length) → (m.get ⟨i, h⟩).1 = (f + i) % U64) :
    ∀ i, i < m.length → m[i]?.map Prod.fst = some ((f + i) % U64) := by
  intro i hi
  rw [List.getElem?_eq_getElem hi]
  have := hkeys i hi
  rw [List.get_eq_getElem] at this
  simp [this]

theorem keys_from_getElem? {T : Type} (m : List (Nat × T)) (f : Nat)
    (h : ∀ i, i < m.length → m[i]?.map Prod.fst = some ((f + i) % U64)) :
    ∀ i, (hh : i < m.length) → (m.get ⟨i, hh⟩).1 = (f + i) % U64 := by
  intro i hi
  have h2 := h i hi
  rw [List.getElem?_eq_getElem hi] at h2
  simp only [Option.map_some'] at h2
  rw [List.get_eq_getElem]
  exact Option.some.inj h2

theorem map_h_enq {T : Type} (q : mapQueue T) (v : T) (hinv : mapInv q)
    (hB : (mapAbs q).length + 1 ≤ U64 - 1) :
    mapInv (mapEnqueue q v) ∧ mapAbs (mapEnqueue q v) = mapAbs q ++ [v] := by
  have hU := U64_pos
  have hlenabs : (mapAbs q).length = q.mem.length := by
    unfold mapAbs
    exact List.length_map ..
  have hml1 : q.mem.length + 1 < U64 := by omega
  obtain ⟨hf, hml, hlast, hkeys⟩ := hinv
  have habsent : ∀ p ∈ q.mem, (p.1 == q.last) = false := by
    have := map_keys_ne q ⟨hf, hml, hlast, hkeys⟩ q.mem.length (by omega)
      (fun i hi => by omega)
    rwa [← hlast] at this
  have hset : memSet q.mem q.last v = q.mem ++ [(q.last, v)] :=
    memSet_append q.mem q.last v habsent
  unfold mapEnqueue
  rw [hset]
  refine ⟨⟨hf, ?_, ?_, ?_⟩, ?_⟩
  · show (q.mem ++ [(q.last, v)]).length < U64
    rw [List.length_append]
    simp only [List.length_cons, List.length_nil]
    omega
  · show (q.last + 1) % U64 = (q.first + (q.mem ++ [(q.last, v)]).length) % U64
    rw [List.length_append, hlast, Nat.mod_add_mod]
    simp only [List.length_cons, List.length_nil]
    rfl
  · show ∀ i, (h : i < (q.mem ++ [(q.last, v)]).length) →
      ((q.mem ++ [(q.last, v)]).get ⟨i, h⟩).1 = (q.first + i) % U64
    apply keys_from_getElem?
    intro i hi
    rw [List.length_append] at hi
    simp only [List.length_cons, List.length_nil] at hi
    rw [List.getElem?_append]
    by_cases hilt : i < q.mem.length
    · rw [if_pos hilt]
      exact keys_to_getElem? q.mem q.first hkeys i hilt
    · rw [if_neg hilt]
      have hieq : i = q.mem.length := by omega
      have h0 : i - q.mem.length = 0 := by omega
      rw [h0]
      simp only [List.getElem?_cons_zero, Option.map_some']
      rw [hlast, hieq]
  · show mapAbs ⟨q.first, (q.last + 1) % U64, q.mem ++ [(q.last, v)]⟩ =
      mapAbs q ++ [v]
    unfold mapAbs
    simp only
    rw [List.map_append]
    rfl

theorem map_h_deq {T : Type} [Inhabited T] (q : mapQueue T) (x : T)
    (xs : List T) (hinv : mapInv q) (habs : mapAbs q = x :: xs) :
    (mapDequeue q).1 = some x ∧ mapInv (mapDequeue q).2 ∧
      mapAbs (mapDequeue q).2 = xs := by
  have hU := U64_pos
  obtain ⟨hf, hml, hlast, hkeys⟩ := hinv
  cases hm : q.mem with
  | nil =>
    unfold mapAbs at habs
    rw [hm] at habs
    simp at habs
  | cons p rest =>
    have hlen0 : ¬ q.mem.length = 0 := by rw [hm]; simp
    have hmlen : q.mem.length = rest.length + 1 := by rw [hm]; simp
    have hkey0 : p.1 = q.first := by
      have h2 := keys_to_getElem? q.mem q.first hkeys 0 (by omega)
      rw [hm] at h2
      simp only [List.getElem?_cons_zero, Option.map_some'] at h2
      have h3 := Option.some.inj h2
      rw [h3, Nat.add_zero]
      exact Nat.mod_eq_of_lt hf
    have hsnd : p.2 = x ∧ rest.map Prod.snd = xs := by
      unfold mapAbs at habs
      rw [hm] at habs
      simp only [List.map_cons, List.cons.injEq] at habs
      exact habs
    have hget : memGetD q.mem q.first = x := by
      unfold memGetD
      rw [hm, List.find?_cons]
      have hbeq : (p.1 == q.first) = true := by rw [beq_iff_eq]; exact hkey0
      rw [hbeq]
      exact hsnd.1
    have hrk : ∀ i, i < rest.length →
        rest[i]?.map Prod.fst = some ((q.first + (i + 1)) % U64) := by
      intro i hi
      have h2 := keys_to_getElem? q.mem q.first hkeys (i + 1) (by omega)
      rw [hm, List.getElem?_cons_succ] at h2
      exact h2
    have hrestkeys : ∀ i, (h : i < rest.length) →
        (rest.get ⟨i, h⟩).1 = (q.first + (i + 1)) % U64 := by
      intro i h
      have h2 := hrk i h
      rw [List.getElem?_eq_getElem h] at h2
      simp only [Option.map_some'] at h2
      rw [List.get_eq_getElem]
      exact Option.some.inj h2
    have hdel : memDelete q.mem q.first = rest := by
      unfold memDelete
      rw [hm, List.filter_cons]
      have hp : (p.1 != q.first) = false := by simp [hkey0]
      rw [hp]
      simp only [Bool.false_eq_true, if_false]
      have hall : ∀ r ∈ rest, (r.1 != q.first) = true := by
        intro r hr
        obtain ⟨⟨i, hi⟩, hgetr⟩ := List.mem_iff_get.mp hr
        have hk := hrestkeys i hi
        rw [hgetr] at hk
        simp only [bne_iff_ne, ne_eq]
        rw [hk]
        intro hcontra
        have hfirst_eq : (q.first + (i + 1)) % U64 = (q.first + 0) % U64 := by
          rw [Nat.add_zero, hcontra]
          exact (Nat.mod_eq_of_lt hf).symm
        have := add_mod_inj U64 q.first (i + 1) 0 (by omega) (by omega) hfirst_eq
        omega
      exact List.filter_eq_self.mpr hall
    unfold mapDequeue
    rw [if_neg hlen0, hdel]
    refine ⟨by rw [hget], ⟨?_, ?_, ?_, ?_⟩, ?_⟩
    · exact Nat.mod_lt _ hU
    · show rest.length < U64
      omega
    · show q.last = ((q.first + 1) % U64 + rest.length) % U64
      rw [Nat.mod_add_mod, hlast]
      congr 1
      omega
    · show ∀ i, (h : i < rest.length) →
        (rest.get ⟨i, h⟩).1 = ((q.first + 1) % U64 + i) % U64
      apply keys_from_getElem?
      intro i hi
      rw [hrk i hi, Nat.mod_add_mod]
      congr 2
      omega
    · show mapAbs ⟨(q.first + 1) % U64, q.last, rest⟩ = xs
      unfold mapAbs
      simp only
      exact hsnd.2

theorem mapEnqueue_no_panic {T : Type} (q : mapQueue T) (hinv : mapInv q)
    (hB : q.mem.length + 1 < U64) : mapEnqueuePanics q = false := by
  have hU := U64_pos
  obtain ⟨hf, hml, hlast, hkeys⟩ := hinv
  unfold mapEnqueuePanics
  rw [beq_eq_false_iff_ne]
  intro hcontra
  rw [hlast, Nat.mod_add_mod] at hcontra
  have hfirst_eq : (q.first + (q.mem.length + 1)) % U64 = (q.first + 0) % U64 := by
    have e : q.first + (q.mem.length + 1) = q.first + q.mem.length + 1 := by omega
    rw [e, hcontra, Nat.add_zero]
    exact (Nat.mod_eq_of_lt hf).symm
  have := add_mod_inj U64 q.first (q.mem.length + 1) 0 hB (by omega) hfirst_eq
  omega

theorem mapRun_spec {T : Type} [Inhabited T] (ops : List (Op T))
    (hval : specValid ops 0 = true) (hlen : ops.length < U64) :
    ∃ s', mapRun ops = some (s', (enqs ops).take (deqCount ops)) ∧
      mapInv s' ∧ mapAbs s' = (enqs ops).drop (deqCount ops) := by
  have hU := U64_pos
  have habs0 : mapAbs (newMapQueue : mapQueue T) = [] := rfl
  have hinv0 : mapInv (newMapQueue : mapQueue T) := by
    refine ⟨hU, by simpa [newMapQueue] using hU, by simp [newMapQueue], ?_⟩
    intro i hi
    simp [newMapQueue] at hi
  have hsim := runQ_sim mapEnqueue mapDequeue mapInv mapAbs (U64 - 1)
    (fun s v hs hb => map_h_enq s v hs hb)
    (fun s x xs hs hx => map_h_deq s x xs hs hx)
    ops newMapQueue hinv0
    (by rw [habs0]; exact hval)
    (by rw [habs0]; simp only [List.length_nil, Nat.zero_add]; omega)
  simpa [mapRun, habs0] using hsim

-- ## Per-backend run lemmas

theorem slice_h_deq_full {T : Type} (t : Tunables) (s : sliceQueue T) (x : T)
    (xs : List T) (habs : sliceAbs s = x :: xs) :
    (sliceDequeue t s).1 = some x ∧ sliceAbs (sliceDequeue t s).2 = xs :=
  slice_h_deq t s x xs habs

theorem sliceRun_spec {T : Type} (t : Tunables) (g : Nat → Nat)
    (ops : List (Op T)) (hval : specValid ops 0 = true) :
    ∃ s', sliceRun t g ops = some (s', (enqs ops).take (deqCount ops)) ∧
      sliceAbs s' = (enqs ops).drop (deqCount ops) := by
  have habs0 : sliceAbs (sliceEmpty : sliceQueue T) = [] := rfl
  have hsim := runQ_sim (sliceEnqueue t g) (sliceDequeue t) (fun _ => True)
    sliceAbs ops.length
    (fun s v _ _ => ⟨trivial, slice_h_enq t g s v⟩)
    (fun s x xs _ hx =>
      ⟨(slice_h_deq t s x xs hx).1, trivial, (slice_h_deq t s x xs hx).2⟩)
    ops sliceEmpty trivial
    (by rw [habs0]; exact hval)
    (by rw [habs0]; simp)
  obtain ⟨s', h1, _, h3⟩ := hsim
  refine ⟨s', ?_, ?_⟩
  · rw [sliceRun, h1, habs0]
    simp
  · rw [h3, habs0]
    simp

theorem ll_h_enq {T : Type} (s : linkedListQueue T) (v : T) (h : llInv s) :
    llInv (llEnqueue s v) ∧ llAbs (llEnqueue s v) = llAbs s ++ [v] := by
  unfold llInv at h
  refine ⟨?_, rfl⟩
  show s.len + 1 = ((s.list ++ [v]).length : Int)
  rw [h, List.length_append]
  simp only [List.length_cons, List.length_nil]
  push_cast
  omega

theorem ll_h_deq {T : Type} (s : linkedListQueue T) (x : T) (xs : List T)
    (h : llInv s) (habs : llAbs s = x :: xs) :
    (llDequeue s).1 = some x ∧ llInv (llDequeue s).2 ∧
      llAbs (llDequeue s).2 = xs := by
  unfold llAbs at habs
  unfold llInv at h
  rw [habs] at h
  simp only [List.length_cons] at h
  unfold llDequeue
  simp only [habs]
  refine ⟨?_, ?_, ?_⟩
  · trivial
  · show llInv ⟨s.len - 1, xs⟩
    unfold llInv
    simp only
    omega
  · rfl

theorem llRun_spec {T : Type} (ops : List (Op T))
    (hval : specValid ops 0 = true) :
    ∃ s', llRun ops = some (s', (enqs ops).take (deqCount ops)) ∧
      llInv s' ∧ llAbs s' = (enqs ops).drop (deqCount ops) := by
  have habs0 : llAbs (llEmpty : linkedListQueue T) = [] := rfl
  have hsim := runQ_sim llEnqueue llDequeue llInv llAbs ops.length
    (fun s v hs _ => ll_h_enq s v hs)
    (fun s x xs hs hx => ll_h_deq s x xs hs hx)
    ops llEmpty (by unfold llInv llEmpty; rfl)
    (by rw [habs0]; exact hval)
    (by rw [habs0]; simp)
  simpa [llRun, habs0] using hsim

theorem llp_h_enq {T : Type} (s : pooledQueue T) (v : T) (h : llpInv s) :
    llpInv (llpEnqueue s v) ∧ llpAbs (llpEnqueue s v) = llpAbs s ++ [v] := by
  unfold llpInv at h
  refine ⟨?_, rfl⟩
  show s.len + 1 = ((s.list ++ [v]).length : Int)
  rw [h, List.length_append]
  simp only [List.length_cons, List.length_nil]
  push_cast
  omega

theorem llp_h_deq {T : Type} (s : pooledQueue T) (x : T) (xs : List T)
    (h : llpInv s) (habs : llpAbs s = x :: xs) :
    (llpDequeue s).1 = some x ∧ llpInv (llpDequeue s).2 ∧
      llpAbs (llpDequeue s).2 = xs := by
  unfold llpAbs at habs
  unfold llpInv at h
  rw [habs] at h
  simp only [List.length_cons] at h
  unfold llpDequeue
  simp only [habs]
  refine ⟨?_, ?_, ?_⟩
  · trivial
  · show llpInv ⟨s.len - 1, xs⟩
    unfold llpInv
    simp only
    omega
  · rfl

theorem llpRun_spec {T : Type} (ops : List (Op T))
    (hval : specValid ops 0 = true) :
    ∃ s', llpRun ops = some (s', (enqs ops).take (deqCount ops)) ∧
      llpInv s' ∧ llpAbs s' = (enqs ops).drop (deqCount ops) := by
  have habs0 : llpAbs (newPooled : pooledQueue T) = [] := rfl
  have hsim := runQ_sim llpEnqueue llpDequeue llpInv llpAbs ops.length
    (fun s v hs _ => llp_h_enq s v hs)
    (fun s x xs hs hx => llp_h_deq s x xs hs hx)
    ops newPooled (by unfold llpInv newPooled; rfl)
    (by rw [habs0]; exact hval)
    (by rw [habs0]; simp)
  simpa [llpRun, habs0] using hsim

theorem chanRun_spec {T : Type} (t : Tunables) (hbase : 1 ≤ t.baseLen)
    (ops : List (Op T)) (hval : specValid ops 0 = true) :
    ∃ s', chanRun t ops = some (s', (enqs ops).take (deqCount ops)) ∧
      chanInv s' ∧ chanAbs s' = (enqs ops).drop (deqCount ops) := by
  have habs0 : chanAbs (newChanQueue t : chanQueue T) = [] := rfl
  have hsim := runQ_sim chanEnqueue (chanDequeue t) chanInv chanAbs ops.length
    (fun s v hs _ => chan_h_enq s v hs)
    (fun s x xs hs hx => chan_h_deq t s x xs hs hx)
    ops (newChanQueue t) (by constructor <;> simp [newChanQueue, chanInv]; omega)
    (by rw [habs0]; exact hval)
    (by rw [habs0]; simp)
  simpa [chanRun, habs0] using hsim

-- ## Observation lemmas: dequeued values and final reported length

theorem sliceRun_obs {T : Type} (t : Tunables) (g : Nat → Nat)
    (ops : List (Op T)) (hval : specValid ops 0 = true) :
    runObs sliceLen (sliceRun t g ops) =
      some ((enqs ops).take (deqCount ops),
        ((((enqs ops).drop (deqCount ops)).length : Nat) : Int)) := by
  obtain ⟨s', h1, h3⟩ := sliceRun_spec t g ops hval
  rw [runObs, h1]
  simp only [Option.map_some']
  unfold sliceAbs at h3
  unfold sliceLen
  rw [h3]

theorem ringRun_obs {T : Type} [Inhabited T] (t : Tunables)
    (hbase : 1 ≤ t.baseLen) (ops : List (Op T))
    (hval : specValid ops 0 = true) :
    runObs ringLen (ringRun t ops) =
      some ((enqs ops).take (deqCount ops),
        ((((enqs ops).drop (deqCount ops)).length : Nat) : Int)) := by
  obtain ⟨s', h1, h2, h3⟩ := ringRun_spec t hbase ops hval
  rw [runObs, h1]
  simp only [Option.map_some']
  have hlen : ((enqs ops).drop (deqCount ops)).length = s'.l := by
    rw [← h3]
    exact ringAbs_length s' h2
  unfold ringLen
  rw [hlen]

theorem chanRun_obs {T : Type} (t : Tunables) (hbase : 1 ≤ t.baseLen)
    (ops : List (Op T)) (hval : specValid ops 0 = true) :
    runObs chanLen (chanRun t ops) =
      some ((enqs ops).take (deqCount ops),
        ((((enqs ops).drop (deqCount ops)).length : Nat) : Int)) := by
  obtain ⟨s', h1, _, h3⟩ := chanRun_spec t hbase ops hval
  rw [runObs, h1]
  simp only [Option.map_some']
  unfold chanAbs at h3
  unfold chanLen
  rw [h3]

theorem llRun_obs {T : Type} (ops : List (Op T))
    (hval : specValid ops 0 = true) :
    runObs llLen (llRun ops) =
      some ((enqs ops).take (deqCount ops),
        ((((enqs ops).drop (deqCount ops)).length : Nat) : Int)) := by
  obtain ⟨s', h1, h2, h3⟩ := llRun_spec ops hval
  rw [runObs, h1]
  simp only [Option.map_some']
  unfold llAbs at h3
  unfold llInv at h2
  unfold llLen
  rw [h2, h3]

theorem llpRun_obs {T : Type} (ops : List (Op T))
    (hval : specValid ops 0 = true) :
    runObs llpLen (llpRun ops) =
      some ((enqs ops).take (deqCount ops),
        ((((enqs ops).drop (deqCount ops)).length : Nat) : Int)) := by
  obtain ⟨s', h1, h2, h3⟩ := llpRun_spec ops hval
  rw [runObs, h1]
  simp only [Option.map_some']
  unfold llpAbs at h3
  unfold llpInv at h2
  unfold llpLen
  rw [h2, h3]

theorem mapRun_obs {T : Type} [Inhabited T] (ops : List (Op T))
    (hval : specValid ops 0 = true) (hlen : ops.length < U64) :
    runObs mapLen (mapRun ops) =
      some ((enqs ops).take (deqCount ops),
        ((((enqs ops).drop (deqCount ops)).length : Nat) : Int)) := by
  obtain ⟨s', h1, _, h3⟩ := mapRun_spec ops hval hlen
  rw [runObs, h1]
  simp only [Option.map_some']
  have hlen2 : ((enqs ops).drop (deqCount ops)).length = s'.mem.length := by
    rw [← h3]
    unfold mapAbs
    rw [List.length_map]
  unfold mapLen
  rw [hlen2]

-- ## Claim theorems

/-- Claim C1: for every backend (contiguous-buffer slice, ring buffer,
channel backed, linked list, pooled linked list, sparse-index map) and
every sequence of Enqueue and Dequeue operations in which each Dequeue
is performed only when the length is positive, the sequence of values
returned by Dequeue equals the sequence of enqueued values restricted
to insertion order, and the values not yet dequeued are exactly the
remaining enqueued values in their original relative order.  The
hypothesis `ops.length < U64` excludes runs long enough to exhaust the
map backend's 64-bit sequence space (where the Go code deliberately
panics); `1 ≤ t.baseLen` holds for the source default (8) and the test
setting (2). -/
theorem C1_fifo_order {T : Type} [Inhabited T] (t : Tunables) (g : Nat → Nat)
    (ops : List (Op T)) (hbase : 1 ≤ t.baseLen)
    (hval : specValid ops 0 = true) (hlen : ops.length < U64) :
    runResult sliceAbs (sliceRun t g ops) =
      some ((enqs ops).drop (deqCount ops), (enqs ops).take (deqCount ops)) ∧
    runResult ringAbs (ringRun t ops) =
      some ((enqs ops).drop (deqCount ops), (enqs ops).take (deqCount ops)) ∧
    runResult chanAbs (chanRun t ops) =
      some ((enqs ops).drop (deqCount ops), (enqs ops).take (deqCount ops)) ∧
    runResult llAbs (llRun ops) =
      some ((enqs ops).drop (deqCount ops), (enqs ops).take (deqCount ops)) ∧
    runResult llpAbs (llpRun ops) =
      some ((enqs ops).drop (deqCount ops), (enqs ops).take (deqCount ops)) ∧
    runResult mapAbs (mapRun ops) =
      some ((enqs ops).drop (deqCount ops), (enqs ops).take (deqCount ops)) := by
  refine ⟨?_, ?_, ?_, ?_, ?_, ?_⟩
  · obtain ⟨s', h1, h3⟩ := sliceRun_spec t g ops hval
    rw [runResult, h1]
    simp only [Option.map_some']
    rw [h3]
  · obtain ⟨s', h1, _, h3⟩ := ringRun_spec t hbase ops hval
    rw [runResult, h1]
    simp only [Option.map_some']
    rw [h3]
  · obtain ⟨s', h1, _, h3⟩ := chanRun_spec t hbase ops hval
    rw [runResult, h1]
    simp only [Option.map_some']
    rw [h3]
  · obtain ⟨s', h1, _, h3⟩ := llRun_spec ops hval
    rw [runResult, h1]
    simp only [Option.map_some']
    rw [h3]
  · obtain ⟨s', h1, _, h3⟩ := llpRun_spec ops hval
    rw [runResult, h1]
    simp only [Option.map_some']
    rw [h3]
  · obtain ⟨s', h1, _, h3⟩ := mapRun_spec ops hval hlen
    rw [runResult, h1]
    simp only [Option.map_some']
    rw [h3]

/-- Witness for C1 at a concrete operation sequence exercising
interleaved enqueues and dequeues on all six backends. -/
theorem C1_fifo_order_witness :
    (1 ≤ defaultTunables.baseLen ∧
      specValid ([Op.enq 1, Op.enq 2, Op.deq, Op.enq 3, Op.deq, Op.deq] :
        List (Op Nat)) 0 = true ∧
      ([Op.enq 1, Op.enq 2, Op.deq, Op.enq 3, Op.deq, Op.deq] :
        List (Op Nat)).length < U64) ∧
    runResult mapAbs
        (mapRun ([Op.enq 1, Op.enq 2, Op.deq, Op.enq 3, Op.deq, Op.deq] :
          List (Op Nat))) =
      some ([], [1, 2, 3]) :=
  ⟨⟨by decide, by decide, by decide⟩,
    by
      have h := (C1_fifo_order defaultTunables (fun c => growthFactor * c)
        [Op.enq 1, Op.enq 2, Op.deq, Op.enq 3, Op.deq, Op.deq]
        (by decide) (by decide) (by decide)).2.2.2.2.2
      rw [h]
      decide⟩

/-- Claim C2 counterexample: the shrink guard of `shouldShrink`
compares the length `l` itself against `c/4`, not the candidate new
capacity `l * growthFactor`.  At `l = 20`, `c = 100` with both
thresholds lowered to 2, the code permits the shrink although
`l * growthFactor = 40` is not below `c/4 = 25`, refuting the claim as
stated. -/
theorem C2_cex_shouldShrink :
    (shouldShrink ⟨2, 2⟩ 20 100).2 = true ∧
      ¬ (20 * growthFactor < 100 / 4) := by
  decide

/-- Claim C2 (amended): `shouldShrink(l, c)` permits a shrink iff
`l < c/4`, `l` exceeds the minimum-shrink threshold and `l` exceeds
the base capacity, and the computed new capacity is always
`l * growthFactor`; in particular `shouldShrink(10, 100)` does not
permit a shrink under the default thresholds (64, 8) and permits one
with new capacity 20 when the thresholds are lowered to 2. -/
theorem C2_shouldShrink_amended :
    (∀ (t : Tunables) (l c : Nat),
      ((shouldShrink t l c).2 = true ↔
        l < c / 4 ∧ t.minShrink < l ∧ t.baseLen < l) ∧
      (shouldShrink t l c).1 = l * growthFactor) ∧
    (shouldShrink ⟨64, 8⟩ 10 100).2 = false ∧
    (shouldShrink ⟨2, 2⟩ 10 100).2 = true ∧
    (shouldShrink ⟨2, 2⟩ 10 100).1 = 10 * growthFactor := by
  refine ⟨?_, by decide, by decide, by decide⟩
  intro t l c
  constructor
  · unfold shouldShrink
    simp
    tauto
  · rfl

/-- Claim C3: for every backend, after any operation sequence with N
enqueues and M dequeues in which every dequeue happens on a non-empty
queue, the reported length is exactly N - M, and in particular never
negative.  (Same boundary hypotheses as C1.) -/
theorem C3_length_invariant {T : Type} [Inhabited T] (t : Tunables)
    (g : Nat → Nat) (ops : List (Op T)) (hbase : 1 ≤ t.baseLen)
    (hval : specValid ops 0 = true) (hlen : ops.length < U64) :
    0 ≤ ((enqs ops).length : Int) - (deqCount ops : Int) ∧
    (sliceRun t g ops).map (fun p => sliceLen p.1) =
      some (((enqs ops).length : Int) - (deqCount ops : Int)) ∧
    (ringRun t ops).map (fun p => ringLen p.1) =
      some (((enqs ops).length : Int) - (deqCount ops : Int)) ∧
    (chanRun t ops).map (fun p => chanLen p.1) =
      some (((enqs ops).length : Int) - (deqCount ops : Int)) ∧
    (llRun ops).map (fun p => llLen p.1) =
      some (((enqs ops).length : Int) - (deqCount ops : Int)) ∧
    (llpRun ops).map (fun p => llpLen p.1) =
      some (((enqs ops).length : Int) - (deqCount ops : Int)) ∧
    (mapRun ops).map (fun p => mapLen p.1) =
      some (((enqs ops).length : Int) - (deqCount ops : Int)) := by
  have hMN : deqCount ops ≤ (enqs ops).length := by
    have := enqs_length_add ops 0 hval
    omega
  have hcast : ((((enqs ops).drop (deqCount ops)).length : Nat) : Int) =
      ((enqs ops).length : Int) - (deqCount ops : Int) := by
    rw [List.length_drop]
    omega
  have hobs : ∀ {S : Type} (len : S → Int) (r : Option (S × List T)) (out : List T),
      runObs len r = some (out, ((enqs ops).length : Int) - (deqCount ops : Int)) →
      r.map (fun p => len p.1) =
        some (((enqs ops).length : Int) - (deqCount ops : Int)) := by
    intro S len r out h
    cases r with
    | none => simp [runObs] at h
    | some p =>
      simp only [runObs, Option.map_some', Prod.mk.injEq, Option.some.injEq] at h
      simp only [Option.map_some', Option.some.injEq]
      exact h.2
  refine ⟨by omega, ?_, ?_, ?_, ?_, ?_, ?_⟩
  · exact hobs sliceLen _ _ (by rw [sliceRun_obs t g ops hval, hcast])
  · exact hobs ringLen _ _ (by rw [ringRun_obs t hbase ops hval, hcast])
  · exact hobs chanLen _ _ (by rw [chanRun_obs t hbase ops hval, hcast])
  · exact hobs llLen _ _ (by rw [llRun_obs ops hval, hcast])
  · exact hobs llpLen _ _ (by rw [llpRun_obs ops hval, hcast])
  · exact hobs mapLen _ _ (by rw [mapRun_obs ops hval hlen, hcast])

/-- Witness for C3: three enqueues and one dequeue leave length 2. -/
theorem C3_length_invariant_witness :
    (1 ≤ defaultTunables.baseLen ∧
      specValid ([Op.enq 4, Op.enq 5, Op.deq, Op.enq 6] : List (Op Nat)) 0 = true ∧
      ([Op.enq 4, Op.enq 5, Op.deq, Op.enq 6] : List (Op Nat)).length < U64) ∧
    (ringRun defaultTunables ([Op.enq 4, Op.enq 5, Op.deq, Op.enq 6] :
        List (Op Nat))).map (fun p => ringLen p.1) = some 2 :=
  ⟨⟨by decide, by decide, by decide⟩,
    by
      have h := (C3_length_invariant defaultTunables (fun c => growthFactor * c)
        [Op.enq 4, Op.enq 5, Op.deq, Op.enq 6]
        (by decide) (by decide) (by decide)).2.2.1
      rw [h]
      decide⟩

/-- Claim C4: for every backend, Dequeue on an empty queue (length 0)
returns no value and signals the panic (modelled by the `none`
component), never silently producing a zero-valued element.  The two
linked-list backends check `head == nil` rather than the counter, so
their statements carry the well-formedness invariant tying the counter
to the chain; the other four decide emptiness directly from the state
the length reports on. -/
theorem C4_dequeue_empty_panics {T : Type} [Inhabited T] (t : Tunables) :
    (∀ s : sliceQueue T, sliceLen s = 0 → (sliceDequeue t s).1 = none) ∧
    (∀ q : ringQueue T, ringLen q = 0 → (ringDequeue t q).1 = none) ∧
    (∀ s : chanQueue T, chanLen s = 0 → (chanDequeue t s).1 = none) ∧
    (∀ s : linkedListQueue T, llInv s → llLen s = 0 → (llDequeue s).1 = none) ∧
    (∀ s : pooledQueue T, llpInv s → llpLen s = 0 → (llpDequeue s).1 = none) ∧
    (∀ q : mapQueue T, mapLen q = 0 → (mapDequeue q).1 = none) := by
  refine ⟨?_, ?_, ?_, ?_, ?_, ?_⟩
  · intro s h
    unfold sliceLen at h
    have hnil : s.data = [] :=
      List.length_eq_zero.mp (Nat.cast_eq_zero.mp h)
    unfold sliceDequeue
    simp only [hnil]
  · intro q h
    unfold ringLen at h
    have hl : q.l = 0 := Nat.cast_eq_zero.mp h
    unfold ringDequeue
    rw [if_pos hl]
  · intro s h
    unfold chanLen at h
    have hnil : s.buf = [] :=
      List.length_eq_zero.mp (Nat.cast_eq_zero.mp h)
    unfold chanDequeue
    simp only [hnil]
  · intro s hinv h
    unfold llLen at h
    unfold llInv at hinv
    rw [h] at hinv
    have hnil : s.list = [] :=
      List.length_eq_zero.mp (Nat.cast_eq_zero.mp hinv.symm)
    unfold llDequeue
    simp only [hnil]
  · intro s hinv h
    unfold llpLen at h
    unfold llpInv at hinv
    rw [h] at hinv
    have hnil : s.list = [] :=
      List.length_eq_zero.mp (Nat.cast_eq_zero.mp hinv.symm)
    unfold llpDequeue
    simp only [hnil]
  · intro q h
    unfold mapLen at h
    have hl : q.mem.length = 0 := Nat.cast_eq_zero.mp h
    unfold mapDequeue
    rw [if_pos hl]

/-- Witness for C4 on the canonical empty state of each backend. -/
theorem C4_dequeue_empty_panics_witness :
    (llInv (llEmpty : linkedListQueue Nat) ∧
      llpInv (newPooled : pooledQueue Nat) ∧
      sliceLen (sliceEmpty : sliceQueue Nat) = 0 ∧
      ringLen (ringEmpty : ringQueue Nat) = 0 ∧
      chanLen (newChanQueue defaultTunables : chanQueue Nat) = 0 ∧
      llLen (llEmpty : linkedListQueue Nat) = 0 ∧
      llpLen (newPooled : pooledQueue Nat) = 0 ∧
      mapLen (newMapQueue : mapQueue Nat) = 0) ∧
    (sliceDequeue defaultTunables (sliceEmpty : sliceQueue Nat)).1 = none ∧
    (ringDequeue defaultTunables (ringEmpty : ringQueue Nat)).1 = none ∧
    (chanDequeue defaultTunables (newChanQueue defaultTunables :
      chanQueue Nat)).1 = none ∧
    (llDequeue (llEmpty : linkedListQueue Nat)).1 = none ∧
    (llpDequeue (newPooled : pooledQueue Nat)).1 = none ∧
    (mapDequeue (newMapQueue : mapQueue Nat)).1 = none :=
  ⟨⟨by decide, by decide, by decide, by decide, by decide, by decide,
      by decide, by decide⟩,
    (C4_dequeue_empty_panics defaultTunables).1 sliceEmpty (by decide),
    (C4_dequeue_empty_panics defaultTunables).2.1 ringEmpty (by decide),
    (C4_dequeue_empty_panics defaultTunables).2.2.1 (newChanQueue defaultTunables)
      (by decide),
    (C4_dequeue_empty_panics defaultTunables).2.2.2.1 llEmpty (by decide)
      (by decide),
    (C4_dequeue_empty_panics defaultTunables).2.2.2.2.1 newPooled (by decide)
      (by decide),
    (C4_dequeue_empty_panics defaultTunables).2.2.2.2.2 newMapQueue (by decide)⟩

/-- Claim C5: the ring buffer's rebuild routine `swapBuf`, shared by
growth and shrink, copies the live elements to physical offset 0 of
the new buffer and resets `first` to 0 (copying the tail segment
before the head segment in the wraparound case, per its definition),
so whenever the live length fits in the new buffer the logical FIFO
content is preserved. -/
theorem C5_swapBuf_preserves_fifo {T : Type} (q : ringQueue T) (n : List T)
    (hinv : ringInv q) (hn : q.l ≤ n.length) :
    (swapBuf q n).first = 0 ∧ (swapBuf q n).l = q.l ∧
      (swapBuf q n).buf.take q.l = ringAbs q ∧
      ringAbs (swapBuf q n) = ringAbs q := by
  obtain ⟨h0, hl, _, htake⟩ := swapBuf_spec q n hinv hn
  exact ⟨h0, hl, htake, ringAbs_swapBuf q n hinv hn⟩

/-- Witness for C5 on a wrapped ring (live window spans the end and
start of the buffer) rebuilt into a buffer of size 6. -/
theorem C5_swapBuf_preserves_fifo_witness :
    (ringInv (⟨2, 3, [10, 20, 30, 40]⟩ : ringQueue Nat) ∧
      (⟨2, 3, [10, 20, 30, 40]⟩ : ringQueue Nat).l ≤
        (List.replicate 6 0).length) ∧
    ((swapBuf (⟨2, 3, [10, 20, 30, 40]⟩ : ringQueue Nat)
        (List.replicate 6 0)).first = 0 ∧
      (swapBuf (⟨2, 3, [10, 20, 30, 40]⟩ : ringQueue Nat)
        (List.replicate 6 0)).l = (⟨2, 3, [10, 20, 30, 40]⟩ : ringQueue Nat).l ∧
      (swapBuf (⟨2, 3, [10, 20, 30, 40]⟩ : ringQueue Nat)
          (List.replicate 6 0)).buf.take
          (⟨2, 3, [10, 20, 30, 40]⟩ : ringQueue Nat).l =
        ringAbs (⟨2, 3, [10, 20, 30, 40]⟩ : ringQueue Nat) ∧
      ringAbs (swapBuf (⟨2, 3, [10, 20, 30, 40]⟩ : ringQueue Nat)
          (List.replicate 6 0)) =
        ringAbs (⟨2, 3, [10, 20, 30, 40]⟩ : ringQueue Nat)) :=
  ⟨⟨by decide, by decide⟩,
    C5_swapBuf_preserves_fifo (⟨2, 3, [10, 20, 30, 40]⟩ : ringQueue Nat)
      (List.replicate 6 0) (by decide) (by decide)⟩

/-- Claim C7: when a ring-buffer Enqueue needs one more slot than the
current capacity (including the first allocation on a zero-value
queue), the buffer is grown to capacity
`max(growthFactor * capacity, baseLen)` before the element is placed,
and the new element lands at the logical tail. -/
theorem C7_ring_grow_on_enqueue {T : Type} [Inhabited T] (t : Tunables)
    (q : ringQueue T) (v : T) (hbase : 1 ≤ t.baseLen) (hinv : ringInv q)
    (hfull : q.buf.length < q.l + 1) :
    (ringEnqueue t q v).buf.length =
      max (growthFactor * q.buf.length) t.baseLen ∧
    ringAbs (ringEnqueue t q v) = ringAbs q ++ [v] ∧
    (ringEnqueue t q v).l = q.l + 1 := by
  obtain ⟨_, _, gl, _, glen, _⟩ := ringGrow_spec t q hinv hbase
  refine ⟨?_, (ring_h_enq t q v hbase hinv).2, ?_⟩
  · rw [ringEnqueue_grow_eq t q v hfull]
    simp only [List.length_set]
    exact glen
  · rw [ringEnqueue_grow_eq t q v hfull]
    simp only
    rw [gl]

/-- Witness for C7: first allocation from the zero-value ring queue
under the default tunables grows the buffer to the base capacity 8. -/
theorem C7_ring_grow_on_enqueue_witness :
    (1 ≤ defaultTunables.baseLen ∧ ringInv (ringEmpty : ringQueue Nat) ∧
      (ringEmpty : ringQueue Nat).buf.length < (ringEmpty : ringQueue Nat).l + 1) ∧
    ((ringEnqueue defaultTunables (ringEmpty : ringQueue Nat) 7).buf.length =
        max (growthFactor * (ringEmpty : ringQueue Nat).buf.length)
          defaultTunables.baseLen ∧
      ringAbs (ringEnqueue defaultTunables (ringEmpty : ringQueue Nat) 7) =
        ringAbs (ringEmpty : ringQueue Nat) ++ [7] ∧
      (ringEnqueue defaultTunables (ringEmpty : ringQueue Nat) 7).l =
        (ringEmpty : ringQueue Nat).l + 1) :=
  ⟨⟨by decide, by decide, by decide⟩,
    C7_ring_grow_on_enqueue defaultTunables ringEmpty 7 (by decide) (by decide)
      (by decide)⟩

/-- Claim C8: no operation of the channel backend ever blocks.
Dequeue on an empty pipe returns the panic signal rather than waiting;
the grow path of Enqueue and the shrink drain always target a pipe
whose capacity is at least the number of elements sent into it, so the
explicit would-block predicates are false on all well-formed states,
and runs from the constructor always stay well-formed. -/
theorem C8_chan_never_blocks {T : Type} (t : Tunables) :
    (∀ s : chanQueue T, s.buf = [] → chanDequeue t s = (none, s)) ∧
    (∀ s : chanQueue T, chanInv s → chanEnqueueWouldBlock s = false) ∧
    (∀ s : chanQueue T, chanShrinkWouldBlock t s = false) ∧
    (∀ ops : List (Op T), 1 ≤ t.baseLen → specValid ops 0 = true →
      ∃ s' out, chanRun t ops = some (s', out) ∧ chanInv s') := by
  refine ⟨?_, ?_, ?_, ?_⟩
  · intro s h
    unfold chanDequeue
    simp only [h]
  · intro s h
    obtain ⟨h1, h2⟩ := h
    unfold chanEnqueueWouldBlock
    split
    · rfl
    · simp only [growthFactor, decide_eq_false_iff_not]
      omega
  · intro s
    unfold chanShrinkWouldBlock
    rcases hs : shouldShrink t s.buf.length s.cp with ⟨nl, ok⟩
    simp only
    cases ok with
    | false => rfl
    | true =>
      have hle : s.buf.length ≤ nl := by
        simp only [shouldShrink, Prod.mk.injEq, growthFactor] at hs
        omega
      simp only [Bool.true_and, decide_eq_false_iff_not]
      omega
  · intro ops hbase hval
    obtain ⟨s', h1, h2, _⟩ := chanRun_spec t hbase ops hval
    exact ⟨s', _, h1, h2⟩

/-- Witness for C8 on concrete channel states and a short run. -/
theorem C8_chan_never_blocks_witness :
    ((⟨[], 5⟩ : chanQueue Nat).buf = [] ∧
      chanInv (⟨[2, 3], 2⟩ : chanQueue Nat) ∧
      1 ≤ defaultTunables.baseLen ∧
      specValid ([Op.enq 1, Op.deq] : List (Op Nat)) 0 = true) ∧
    chanDequeue defaultTunables (⟨[], 5⟩ : chanQueue Nat) =
      (none, (⟨[], 5⟩ : chanQueue Nat)) ∧
    chanEnqueueWouldBlock (⟨[2, 3], 2⟩ : chanQueue Nat) = false ∧
    chanShrinkWouldBlock defaultTunables (⟨[2, 3], 2⟩ : chanQueue Nat) = false ∧
    (∃ s' out, chanRun defaultTunables ([Op.enq 1, Op.deq] : List (Op Nat)) =
      some (s', out) ∧ chanInv s') :=
  ⟨⟨rfl, by decide, by decide, by decide⟩,
    (C8_chan_never_blocks (T := Nat) defaultTunables).1 ⟨[], 5⟩ rfl,
    (C8_chan_never_blocks (T := Nat) defaultTunables).2.1 ⟨[2, 3], 2⟩ (by decide),
    (C8_chan_never_blocks (T := Nat) defaultTunables).2.2.1 ⟨[2, 3], 2⟩,
    (C8_chan_never_blocks (T := Nat) defaultTunables).2.2.2 [Op.enq 1, Op.deq]
      (by decide) (by decide)⟩

/-- Claim C9: the pooled linked-list Dequeue decrements the length
counter before its empty check, so dequeuing an empty pooled queue
panics with the counter already decremented (a recovering caller of a
fresh queue observes length -1), while the plain linked-list Dequeue
checks emptiness first and leaves its state unchanged when it
panics. -/
theorem C9_pooled_dequeue_not_atomic {T : Type} :
    (∀ s : pooledQueue T, s.list = [] →
      llpDequeue s = (none, (⟨s.len - 1, []⟩ : pooledQueue T))) ∧
    llpDequeue (newPooled : pooledQueue T) =
      (none, (⟨-1, []⟩ : pooledQueue T)) ∧
    llpLen (⟨-1, []⟩ : pooledQueue T) = -1 ∧
    (∀ s : linkedListQueue T, s.list = [] → llDequeue s = (none, s)) := by
  refine ⟨?_, ?_, rfl, ?_⟩
  · intro s h
    unfold llpDequeue
    simp only [h]
  · unfold llpDequeue newPooled
    simp only
    norm_num
  · intro s h
    unfold llDequeue
    simp only [h]

/-- Witness for C9 on concrete empty pooled and linked-list queues. -/
theorem C9_pooled_dequeue_not_atomic_witness :
    ((⟨3, []⟩ : pooledQueue Nat).list = [] ∧
      (⟨0, []⟩ : linkedListQueue Nat).list = []) ∧
    llpDequeue (⟨3, []⟩ : pooledQueue Nat) = (none, ⟨2, []⟩) ∧
    llpDequeue (newPooled : pooledQueue Nat) = (none, ⟨-1, []⟩) ∧
    llpLen (⟨-1, []⟩ : pooledQueue Nat) = -1 ∧
    llDequeue (⟨0, []⟩ : linkedListQueue Nat) = (none, ⟨0, []⟩) :=
  ⟨⟨rfl, rfl⟩,
    by
      have h := (C9_pooled_dequeue_not_atomic (T := Nat)).1 ⟨3, []⟩ rfl
      rw [h]
      norm_num,
    (C9_pooled_dequeue_not_atomic (T := Nat)).2.1,
    (C9_pooled_dequeue_not_atomic (T := Nat)).2.2.1,
    (C9_pooled_dequeue_not_atomic (T := Nat)).2.2.2 ⟨0, []⟩ rfl⟩

/-- Claim C10: every modulo in the ring backend runs with a positive
divisor.  In Dequeue the divisor of `(first + 1) % len(buf)` is the
unchanged buffer length, positive whenever the queue is non-empty; in
Enqueue the divisor is the buffer length after the conditional grow,
positive because growth reaches at least the (positive) base capacity;
and every run respecting the Dequeue precondition stays inside the
well-formed states these facts apply to. -/
theorem C10_ring_mod_divisors_positive {T : Type} [Inhabited T]
    (t : Tunables) (hbase : 1 ≤ t.baseLen) :
    (∀ q : ringQueue T, ringInv q → ¬ q.l = 0 → 0 < q.buf.length) ∧
    (∀ q : ringQueue T, ringInv q →
      0 < (if q.buf.length < q.l + 1 then ringGrow t q else q).buf.length) ∧
    (∀ ops : List (Op T), specValid ops 0 = true →
      ∃ s' out, ringRun t ops = some (s', out) ∧ ringInv s') := by
  refine ⟨?_, ?_, ?_⟩
  · intro q hinv hl
    have := hinv.1
    omega
  · intro q hinv
    split
    · obtain ⟨_, _, _, _, _, gfit⟩ := ringGrow_spec t q hinv hbase
      omega
    · rename_i h
      omega
  · intro ops hval
    obtain ⟨s', h1, h2, _⟩ := ringRun_spec t hbase ops hval
    exact ⟨s', _, h1, h2⟩

/-- Witness for C10 on a concrete non-empty ring state and a short run. -/
theorem C10_ring_mod_divisors_positive_witness :
    (1 ≤ defaultTunables.baseLen ∧
      ringInv (⟨0, 2, [5, 6, 7]⟩ : ringQueue Nat) ∧
      ¬ (⟨0, 2, [5, 6, 7]⟩ : ringQueue Nat).l = 0 ∧
      specValid ([Op.enq 1, Op.deq] : List (Op Nat)) 0 = true) ∧
    0 < (⟨0, 2, [5, 6, 7]⟩ : ringQueue Nat).buf.length ∧
    0 < (if (⟨0, 2, [5, 6, 7]⟩ : ringQueue Nat).buf.length <
          (⟨0, 2, [5, 6, 7]⟩ : ringQueue Nat).l + 1
        then ringGrow defaultTunables (⟨0, 2, [5, 6, 7]⟩ : ringQueue Nat)
        else (⟨0, 2, [5, 6, 7]⟩ : ringQueue Nat)).buf.length ∧
    (∃ s' out, ringRun defaultTunables ([Op.enq 1, Op.deq] : List (Op Nat)) =
      some (s', out) ∧ ringInv s') :=
  ⟨⟨by decide, by decide, by decide, by decide⟩,
    (C10_ring_mod_divisors_positive defaultTunables (by decide)).1
      ⟨0, 2, [5, 6, 7]⟩ (by decide) (by decide),
    (C10_ring_mod_divisors_positive defaultTunables (by decide)).2.1
      ⟨0, 2, [5, 6, 7]⟩ (by decide),
    (C10_ring_mod_divisors_positive defaultTunables (by decide)).2.2
      [Op.enq 1, Op.deq] (by decide)⟩

/-- Claim C6: for every backend and every operation sequence
respecting the Dequeue precondition, the dequeued values and the
reported length are identical under any two settings of the resize
tunables (and, for the slice backend, any two append growth
strategies): both runs produce the reference observation.  Since this
holds for all valid operation sequences it holds for every prefix, so
the whole observation trace is threshold-independent.  The linked,
pooled and map backends do not consume the resize policy at all, so
their runs are literally the same function of the operations. -/
theorem C6_resize_transparency {T : Type} [Inhabited T] (t1 t2 : Tunables)
    (g1 g2 : Nat → Nat) (ops : List (Op T))
    (hb1 : 1 ≤ t1.baseLen) (hb2 : 1 ≤ t2.baseLen)
    (hval : specValid ops 0 = true) :
    runObs sliceLen (sliceRun t1 g1 ops) =
      runObs sliceLen (sliceRun t2 g2 ops) ∧
    runObs ringLen (ringRun t1 ops) = runObs ringLen (ringRun t2 ops) ∧
    runObs chanLen (chanRun t1 ops) = runObs chanLen (chanRun t2 ops) ∧
    runObs llLen (llRun ops) = runObs llLen (llRun ops) ∧
    runObs llpLen (llpRun ops) = runObs llpLen (llpRun ops) ∧
    runObs mapLen (mapRun ops) = runObs mapLen (mapRun ops) := by
  refine ⟨?_, ?_, ?_, rfl, rfl, rfl⟩
  · rw [sliceRun_obs t1 g1 ops hval, sliceRun_obs t2 g2 ops hval]
  · rw [ringRun_obs t1 hb1 ops hval, ringRun_obs t2 hb2 ops hval]
  · rw [chanRun_obs t1 hb1 ops hval, chanRun_obs t2 hb2 ops hval]

/-- Witness for C6: the default tunables (64, 8) versus the test
tunables (2, 2) on a concrete operation sequence. -/
theorem C6_resize_transparency_witness :
    (1 ≤ defaultTunables.baseLen ∧ 1 ≤ testTunables.baseLen ∧
      specValid ([Op.enq 1, Op.enq 2, Op.deq] : List (Op Nat)) 0 = true) ∧
    (runObs sliceLen (sliceRun defaultTunables (fun c => growthFactor * c)
        ([Op.enq 1, Op.enq 2, Op.deq] : List (Op Nat))) =
      runObs sliceLen (sliceRun testTunables (fun c => c + 1)
        ([Op.enq 1, Op.enq 2, Op.deq] : List (Op Nat))) ∧
    runObs ringLen (ringRun defaultTunables
        ([Op.enq 1, Op.enq 2, Op.deq] : List (Op Nat))) =
      runObs ringLen (ringRun testTunables
        ([Op.enq 1, Op.enq 2, Op.deq] : List (Op Nat))) ∧
    runObs chanLen (chanRun defaultTunables
        ([Op.enq 1, Op.enq 2, Op.deq] : List (Op Nat))) =
      runObs chanLen (chanRun testTunables
        ([Op.enq 1, Op.enq 2, Op.deq] : List (Op Nat))) ∧
    runObs llLen (llRun ([Op.enq 1, Op.enq 2, Op.deq] : List (Op Nat))) =
      runObs llLen (llRun ([Op.enq 1, Op.enq 2, Op.deq] : List (Op Nat))) ∧
    runObs llpLen (llpRun ([Op.enq 1, Op.enq 2, Op.deq] : List (Op Nat))) =
      runObs llpLen (llpRun ([Op.enq 1, Op.enq 2, Op.deq] : List (Op Nat))) ∧
    runObs mapLen (mapRun ([Op.enq 1, Op.enq 2, Op.deq] : List (Op Nat))) =
      runObs mapLen (mapRun ([Op.enq 1, Op.enq 2, Op.deq] : List (Op Nat)))) :=
  ⟨⟨by decide, by decide, by decide⟩,
    C6_resize_transparency defaultTunables testTunables
      (fun c => growthFactor * c) (fun c => c + 1)
      ([Op.enq 1, Op.enq 2, Op.deq] : List (Op Nat))
      (by decide) (by decide) (by decide)⟩
